import Mathlib

/-!
Verification of the diff-to-structured-record pipeline of `src/app.py`
(Quick Diff with JSONL export).

The program's core is a set of pure functions: `similarity_scores`,
`to_lines`, `unified_diff_text`, `parse_unified_diff`, `simple_heuristics`,
`make_change_record` and `save_jsonl`.  The diff generation delegates to
Python's standard library `difflib` (`SequenceMatcher` with `isjunk=None`,
`autojunk=True`, and `unified_diff`), which we embed as well, translated
from the CPython 3.11 sources, specialised to `isjunk=None` exactly as the
program calls it (so the junk set `bjunk` is empty; the two junk-extension
loops of `find_longest_match` never fire and are omitted, and the `not
isbjunk(...)` conjuncts of the two interesting-extension loops are
vacuously true).

Python strings are modelled as `List Char`; Python numbers (floats) are
modelled as exact rationals `ℚ`, with Python's `round` modelled as exact
round-half-to-even.  The identifier generation (`time.strftime` plus a
`uuid4` suffix) is modelled as an explicit seed argument.
-/

namespace DiffApp

/-- The line-boundary characters of Python `str.splitlines`
(LF, VT, FF, CR, FS, GS, RS, NEL, LS, PS). -/
def isLineBreak (c : Char) : Bool :=
  c.toNat = 10 || c.toNat = 11 || c.toNat = 12 || c.toNat = 13 ||
  c.toNat = 28 || c.toNat = 29 || c.toNat = 30 || c.toNat = 133 ||
  c.toNat = 8232 || c.toNat = 8233

/-- Python `str.isspace` / regex `\\s` (the Unicode whitespace set:
TAB..CR, FS..US, SP, NEL, NBSP, OGHAM SPACE, U+2000..U+200A, LS, PS,
NNBSP, MMSP, IDEOGRAPHIC SPACE). -/
def pyIsSpace (c : Char) : Bool :=
  (9 <= c.toNat && c.toNat <= 13) || (28 <= c.toNat && c.toNat <= 32) ||
  c.toNat = 133 || c.toNat = 160 || c.toNat = 5760 ||
  (8192 <= c.toNat && c.toNat <= 8202) ||
  c.toNat = 8232 || c.toNat = 8233 || c.toNat = 8239 ||
  c.toNat = 8287 || c.toNat = 12288

/-- Auxiliary scanner for `str.splitlines`: `acc` is the reversed current
line. -/
def splitlinesGo : List Char → List Char → List (List Char)
  | acc, [] => if acc = [] then [] else [acc.reverse]
  | acc, '\r' :: '\n' :: rest => acc.reverse :: splitlinesGo [] rest
  | acc, c :: rest =>
    if isLineBreak c then acc.reverse :: splitlinesGo [] rest
    else splitlinesGo (c :: acc) rest

/-- Python `str.splitlines()`: split at line boundaries (`\r\n` counts as a
single boundary); a trailing boundary produces no final empty line. -/
def pySplitlines (s : List Char) : List (List Char) :=
  splitlinesGo [] s

/-- Python `str.strip()`: remove leading and trailing whitespace. -/
def pyStrip (s : List Char) : List Char :=
  ((s.dropWhile pyIsSpace).reverse.dropWhile pyIsSpace).reverse

/-- Python `str.startswith(p)`. -/
def pyStartswith (s p : List Char) : Bool :=
  p.isPrefixOf s

/-- Python `str.endswith(p)`. -/
def pyEndswith (s p : List Char) : Bool :=
  p.reverse.isPrefixOf s.reverse

/-- Python `"\n".join(xs)` and friends. -/
def joinSep (sep : List Char) : List (List Char) → List Char
  | [] => []
  | [x] => x
  | x :: y :: xs => x ++ sep ++ joinSep sep (y :: xs)

/-- `to_lines` from app.py: split into lines; with `strip_ws` strip each
line, then re-append a newline (split lines never end in a newline, but the
source re-checks, which we mirror). -/
def to_lines (s : List Char) (strip_ws : Bool) : List (List Char) :=
  if strip_ws then
    (pySplitlines s).map (fun line => pyStrip line ++ [ '\n' ])
  else
    (pySplitlines s).map (fun line =>
      line ++ (if pyEndswith line [ '\n' ] then [] else [ '\n' ]))

/-! ### Python `round` (round-half-to-even) on exact rationals -/

/-- Round-half-to-even to an integer, the semantics of Python's built-in
`round` (idealised over exact rationals). -/
def rhe (q : ℚ) : ℤ :=
  if q - ⌊q⌋ < 1/2 then ⌊q⌋
  else if 1/2 < q - ⌊q⌋ then ⌊q⌋ + 1
  else if Even ⌊q⌋ then ⌊q⌋ else ⌊q⌋ + 1

/-- Python `round(q, d)` for `d ≥ 0`, idealised over exact rationals. -/
def pyRound (q : ℚ) (d : ℕ) : ℚ :=
  (rhe (q * (10 : ℚ) ^ d) : ℚ) / (10 : ℚ) ^ d

/-! ### Tokeniser for the Jaccard similarity -/

/-- The regex `\w` word-character class, restricted to its ASCII behaviour
(letters, digits, underscore), which is what the heuristics and token
patterns of app.py use. -/
def isWordChar (c : Char) : Bool :=
  ('a' ≤ c && c ≤ 'z') || ('A' ≤ c && c ≤ 'Z') ||
  ('0' ≤ c && c ≤ '9') || c = '_'

theorem length_dropWhile_le (p : Char → Bool) (l : List Char) :
    (l.dropWhile p).length ≤ l.length := by
  induction l with
  | nil => simp [List.dropWhile]
  | cons c cs ih =>
    simp only [List.dropWhile]
    cases p c
    · simp
    · simp only [List.length_cons]
      exact Nat.le_succ_of_le ih

/-- Scanner for `findallWords`; every step consumes at least one
character, so the fuel (initialised to the string length) never runs out
and the `0` case is unreachable with a nonempty input. -/
def findallWordsGo : Nat → List Char → List (List Char)
  | 0, _ => []
  | _ + 1, [] => []
  | fuel + 1, c :: rest =>
    if isWordChar c then
      (c :: rest.takeWhile isWordChar) ::
        findallWordsGo fuel (rest.dropWhile isWordChar)
    else
      findallWordsGo fuel rest

/-- `re.findall(r"\w+", s)`: the maximal runs of word characters, in order. -/
def findallWords (s : List Char) : List (List Char) :=
  findallWordsGo s.length s

/-- Python `str.lower()`, ASCII case mapping. -/
def pyLower (s : List Char) : List Char :=
  s.map fun c => if 'A' ≤ c && c ≤ 'Z' then Char.ofNat (c.toNat + 32) else c

/-- Python slice `l[s:s+n]`. -/
def slice {α : Type} (l : List α) (s n : Nat) : List α :=
  (l.drop s).take n

/-!
### `difflib.SequenceMatcher(None, a, b, autojunk=True)`

Translated from CPython 3.11 `difflib.py`, specialised to `isjunk=None`
(the only way app.py constructs it): `bjunk` is empty, so the junk
extension loops of `find_longest_match` never execute and are omitted,
and the `not isbjunk(...)` tests in the interesting extension loops are
vacuous.  The `b2j` dictionary is represented by the function `b2j`;
`j2len` rows are represented as total functions `Nat → Nat` defaulting
to `0` (mirroring `j2len.get(j-1, 0)`; Python's `j-1` for `j = 0` is the
absent key `-1`, hence the explicit `j = 0` case).
-/

/-- Number of occurrences of `x` in `b`. -/
def countIn {α : Type} [DecidableEq α] (b : List α) (x : α) : Nat :=
  (b.filter (fun y => y = x)).length

/-- The autojunk "popular" test of `SequenceMatcher.__chain_b`:
with `autojunk=True` and `len(b) >= 200`, elements occurring more than
`len(b) // 100 + 1` times are dropped from `b2j`. -/
def isPopular {α : Type} [DecidableEq α] (b : List α) (x : α) : Bool :=
  decide (200 ≤ b.length) && decide (b.length / 100 + 1 < countIn b x)

/-- `b2j[x]`: the ascending list of indices of `x` in `b`, empty for
popular elements (and for elements not occurring in `b`). -/
def b2j {α : Type} [DecidableEq α] (b : List α) (x : α) : List Nat :=
  if isPopular b x then []
  else (List.range b.length).filter (fun j => b[j]? = some x)

/-- The inner loop of `find_longest_match` over the candidate index list
`b2j.get(a[i], nothing)`, with the `j < blo` `continue` and the
`j >= bhi` `break`.  State: the row dictionary `newj2len` being built and
the current best block `(besti, bestj, bestsize)`. -/
def innerLoop (blo bhi i : Nat) :
    List Nat → (Nat → Nat) → (Nat → Nat) → Nat × Nat × Nat →
    (Nat → Nat) × (Nat × Nat × Nat)
  | [], _, new, best => (new, best)
  | j :: js, old, new, best =>
    if j < blo then innerLoop blo bhi i js old new best
    else if bhi ≤ j then (new, best)
    else
      let k := (if j = 0 then 0 else old (j - 1)) + 1
      let new' := fun j2 => if j2 = j then k else new j2
      let best' := if best.2.2 < k then (i + 1 - k, j + 1 - k, k) else best
      innerLoop blo bhi i js old new' best'

/-- The outer loop of `find_longest_match` over `i in range(alo, ahi)`. -/
def mainLoop {α : Type} [DecidableEq α] (a b : List α) (blo bhi : Nat) :
    List Nat → (Nat → Nat) → Nat × Nat × Nat → Nat × Nat × Nat
  | [], _, best => best
  | i :: is, j2len, best =>
    let cands := match a[i]? with | some x => b2j b x | none => []
    let r := innerLoop blo bhi i cands j2len (fun _ => 0) best
    mainLoop a b blo bhi is r.1 r.2

/-- The leftward extension loop of `find_longest_match` (with empty junk
set): extend while both sides have room and the preceding elements are
equal.  Out-of-range accesses cannot occur in difflib (the block is within
the window); the `Option` equality with the `isSome` guard totalises.  The
fuel equals `bi`, which decrements in lockstep with it, so at fuel `0` we
have `bi = 0` and the loop guard is false anyway. -/
def extendLeftGo {α : Type} [DecidableEq α] (a b : List α) (alo blo : Nat) :
    Nat → Nat → Nat → Nat → Nat × Nat × Nat
  | 0, bi, bj, bs => (bi, bj, bs)
  | fuel + 1, bi, bj, bs =>
    if alo < bi ∧ blo < bj ∧ a[bi - 1]? = b[bj - 1]? ∧ (a[bi - 1]?).isSome
    then extendLeftGo a b alo blo fuel (bi - 1) (bj - 1) (bs + 1)
    else (bi, bj, bs)

/-- Entry point of the leftward extension. -/
def extendLeft {α : Type} [DecidableEq α] (a b : List α) (alo blo : Nat)
    (bi bj bs : Nat) : Nat × Nat × Nat :=
  extendLeftGo a b alo blo bi bi bj bs

/-- The rightward extension loop of `find_longest_match` (with empty junk
set); the fuel equals `ahi - (bi + bs)`, which decrements in lockstep, so
at fuel `0` the loop guard `bi + bs < ahi` is false anyway. -/
def extendRightGo {α : Type} [DecidableEq α] (a b : List α)
    (ahi bhi bi bj : Nat) : Nat → Nat → Nat
  | 0, bs => bs
  | fuel + 1, bs =>
    if bi + bs < ahi ∧ bj + bs < bhi ∧ a[bi + bs]? = b[bj + bs]? ∧ (a[bi + bs]?).isSome
    then extendRightGo a b ahi bhi bi bj fuel (bs + 1)
    else bs

/-- Entry point of the rightward extension. -/
def extendRight {α : Type} [DecidableEq α] (a b : List α) (ahi bhi : Nat)
    (bi bj bs : Nat) : Nat :=
  extendRightGo a b ahi bhi bi bj (ahi - (bi + bs)) bs

/-- `SequenceMatcher.find_longest_match(alo, ahi, blo, bhi)`. -/
def flm {α : Type} [DecidableEq α] (a b : List α) (alo ahi blo bhi : Nat) :
    Nat × Nat × Nat :=
  let m := mainLoop a b blo bhi (List.range' alo (ahi - alo)) (fun _ => 0) (alo, blo, 0)
  let l := extendLeft a b alo blo m.1 m.2.1 m.2.2
  (l.1, l.2.1, extendRight a b ahi bhi l.1 l.2.1 l.2.2)

/-- Window invariant for a `j2len` row: every live chain ends at an
in-window `b` index, started inside the window on both sides (`iNext` is
the exclusive upper bound of processed `a` indices). -/
def JB (alo blo bhi iNext : Nat) (m : Nat → Nat) : Prop :=
  ∀ j, m j ≠ 0 → blo ≤ j ∧ j < bhi ∧ m j + blo ≤ j + 1 ∧ m j + alo ≤ iNext

/-- Window invariant for a best block `(bi, bj, bs)`. -/
def BB (alo blo hi bhi : Nat) (best : Nat × Nat × Nat) : Prop :=
  alo ≤ best.1 ∧ blo ≤ best.2.1 ∧ best.1 + best.2.2 ≤ hi ∧
    best.2.1 + best.2.2 ≤ bhi

theorem BB_mono {alo blo hi hi' bhi : Nat} {best : Nat × Nat × Nat}
    (h : BB alo blo hi bhi best) (hle : hi ≤ hi') : BB alo blo hi' bhi best :=
  ⟨h.1, h.2.1, le_trans h.2.2.1 hle, h.2.2.2⟩

theorem innerLoop_bounds (alo blo bhi i : Nat) (js : List Nat)
    (old : Nat → Nat) (halo : alo ≤ i)
    (hold : JB alo blo bhi i old) :
    ∀ (new : Nat → Nat) (best : Nat × Nat × Nat),
      JB alo blo bhi (i + 1) new → BB alo blo (i + 1) bhi best →
      JB alo blo bhi (i + 1) (innerLoop blo bhi i js old new best).1 ∧
        BB alo blo (i + 1) bhi (innerLoop blo bhi i js old new best).2 := by
  induction js with
  | nil => intro new best hnew hbest; exact ⟨hnew, hbest⟩
  | cons j js ih =>
    intro new best hnew hbest
    simp only [innerLoop]
    by_cases h1 : j < blo
    · simp only [if_pos h1]; exact ih new best hnew hbest
    · simp only [if_neg h1]
      by_cases h2 : bhi ≤ j
      · simp only [if_pos h2]; exact ⟨hnew, hbest⟩
      · simp only [if_neg h2]
        have hk : ((if j = 0 then 0 else old (j - 1)) + 1) + blo ≤ j + 1 ∧
            ((if j = 0 then 0 else old (j - 1)) + 1) + alo ≤ i + 1 := by
          by_cases hj0 : j = 0
          · rw [if_pos hj0]; omega
          · rw [if_neg hj0]
            by_cases hz : old (j - 1) = 0
            · rw [hz]; omega
            · have := hold (j - 1) hz
              omega
        refine ih _ _ ?_ ?_
        · intro j2 hj2
          dsimp only at hj2
          by_cases hej : j2 = j
          · rw [if_pos hej] at hj2
            dsimp only
            rw [if_pos hej]
            omega
          · rw [if_neg hej] at hj2
            have := hnew j2 hj2
            dsimp only
            rw [if_neg hej]
            exact this
        · by_cases hlt : best.2.2 < (if j = 0 then 0 else old (j - 1)) + 1
          · rw [if_pos hlt]
            dsimp only [BB]
            omega
          · rw [if_neg hlt]; exact hbest

theorem mainLoop_bounds {α : Type} [DecidableEq α] (a b : List α)
    (alo blo bhi : Nat) :
    ∀ (cnt start : Nat) (m : Nat → Nat) (best : Nat × Nat × Nat),
      alo ≤ start → JB alo blo bhi start m → BB alo blo start bhi best →
      BB alo blo (start + cnt) bhi
        (mainLoop a b blo bhi (List.range' start cnt) m best) := by
  intro cnt
  induction cnt with
  | zero => intro start m best _ _ hbest; simpa [mainLoop] using hbest
  | succ n ih =>
    intro start m best hs hm hbest
    rw [List.range'_succ]
    simp only [mainLoop]
    have hstep := innerLoop_bounds alo blo bhi start
      (match a[start]? with | some x => b2j b x | none => []) m hs hm
      (fun _ => 0) best (fun j hj => absurd rfl hj)
      (BB_mono hbest (Nat.le_succ _))
    have := ih (start + 1) _ _ (by omega)
      (fun j hj => (hstep.1 j hj)) hstep.2
    have harith : start + 1 + n = start + (n + 1) := by omega
    rwa [harith] at this

theorem extendLeftGo_bounds {α : Type} [DecidableEq α] (a b : List α)
    (alo blo : Nat) : ∀ (fuel bi bj bs hi bhi : Nat),
      BB alo blo hi bhi (bi, bj, bs) →
      BB alo blo hi bhi (extendLeftGo a b alo blo fuel bi bj bs) := by
  intro fuel
  induction fuel with
  | zero => intro bi bj bs hi bhi hb; exact hb
  | succ n ih =>
    intro bi bj bs hi bhi hb
    simp only [extendLeftGo]
    split
    · next h =>
      refine ih (bi - 1) (bj - 1) (bs + 1) hi bhi ?_
      dsimp only [BB] at hb ⊢
      omega
    · exact hb

theorem extendLeft_bounds {α : Type} [DecidableEq α] (a b : List α)
    (alo blo : Nat) : ∀ (bi bj bs hi bhi : Nat),
      BB alo blo hi bhi (bi, bj, bs) →
      BB alo blo hi bhi (extendLeft a b alo blo bi bj bs) :=
  fun bi bj bs hi bhi hb => extendLeftGo_bounds a b alo blo bi bi bj bs hi bhi hb

theorem extendRightGo_bounds {α : Type} [DecidableEq α] (a b : List α)
    (ahi bhi bi bj : Nat) : ∀ (fuel bs : Nat),
      bi + bs ≤ ahi → bj + bs ≤ bhi →
      bi + extendRightGo a b ahi bhi bi bj fuel bs ≤ ahi ∧
        bj + extendRightGo a b ahi bhi bi bj fuel bs ≤ bhi := by
  intro fuel
  induction fuel with
  | zero => intro bs h1 h2; exact ⟨h1, h2⟩
  | succ n ih =>
    intro bs h1 h2
    simp only [extendRightGo]
    split
    · next h => exact ih (bs + 1) (by omega) (by omega)
    · exact ⟨h1, h2⟩

theorem extendRight_bounds {α : Type} [DecidableEq α] (a b : List α)
    (ahi bhi bi bj bs : Nat) (h1 : bi + bs ≤ ahi) (h2 : bj + bs ≤ bhi) :
    bi + extendRight a b ahi bhi bi bj bs ≤ ahi ∧
      bj + extendRight a b ahi bhi bi bj bs ≤ bhi :=
  extendRightGo_bounds a b ahi bhi bi bj (ahi - (bi + bs)) bs h1 h2

/-- Unconditional window bound for `find_longest_match`: the returned
block `(bi, bj, k)` either is the trivial `(alo, blo, 0)` or lies inside
the window. -/
theorem flm_bounds {α : Type} [DecidableEq α] (a b : List α)
    (alo ahi blo bhi : Nat) (halo : alo ≤ ahi) (hblo : blo ≤ bhi) :
    BB alo blo ahi bhi (flm a b alo ahi blo bhi) := by
  have hmain := mainLoop_bounds a b alo blo bhi (ahi - alo) alo (fun _ => 0)
    (alo, blo, 0) (le_refl _) (fun j hj => absurd rfl hj)
    (by dsimp only [BB]; omega)
  have harith : alo + (ahi - alo) = ahi := by omega
  rw [harith] at hmain
  simp only [flm]
  set m := mainLoop a b blo bhi (List.range' alo (ahi - alo)) (fun _ => 0) (alo, blo, 0) with hm
  have hleft := extendLeft_bounds a b alo blo m.1 m.2.1 m.2.2 ahi bhi hmain
  set l := extendLeft a b alo blo m.1 m.2.1 m.2.2 with hl
  have hright := extendRight_bounds a b ahi bhi l.1 l.2.1 l.2.2
    hleft.2.2.1 hleft.2.2.2
  exact ⟨hleft.1, hleft.2.1, hright.1, hright.2⟩

theorem innerLoop_stuck (blo bhi i : Nat) (h : bhi ≤ blo) :
    ∀ (js : List Nat) (old new : Nat → Nat) (best : Nat × Nat × Nat),
      (innerLoop blo bhi i js old new best).2 = best := by
  intro js
  induction js with
  | nil => intro old new best; rfl
  | cons j js ih =>
    intro old new best
    simp only [innerLoop]
    by_cases h1 : j < blo
    · simp only [if_pos h1]; exact ih old new best
    · simp only [if_neg h1, if_pos (by omega : bhi ≤ j)]

theorem mainLoop_stuck {α : Type} [DecidableEq α] (a b : List α)
    (blo bhi : Nat) (h : bhi ≤ blo) :
    ∀ (is : List Nat) (m : Nat → Nat) (best : Nat × Nat × Nat),
      mainLoop a b blo bhi is m best = best := by
  intro is
  induction is with
  | nil => intro m best; rfl
  | cons i is ih =>
    intro m best
    simp only [mainLoop]
    rw [innerLoop_stuck blo bhi i h]
    exact ih _ best

theorem extendLeftGo_nostep {α : Type} [DecidableEq α] (a b : List α)
    (alo blo bi bj bs : Nat)
    (h : ¬(alo < bi ∧ blo < bj ∧ a[bi - 1]? = b[bj - 1]? ∧
        (a[bi - 1]?).isSome = true)) :
    ∀ fuel, extendLeftGo a b alo blo fuel bi bj bs = (bi, bj, bs) := by
  intro fuel
  cases fuel with
  | zero => rfl
  | succ n =>
    simp only [extendLeftGo]
    rw [if_neg h]

theorem extendRightGo_nostep {α : Type} [DecidableEq α] (a b : List α)
    (ahi bhi bi bj bs : Nat)
    (h : ¬(bi + bs < ahi ∧ bj + bs < bhi ∧ a[bi + bs]? = b[bj + bs]? ∧
        (a[bi + bs]?).isSome = true)) :
    ∀ fuel, extendRightGo a b ahi bhi bi bj fuel bs = bs := by
  intro fuel
  cases fuel with
  | zero => rfl
  | succ n =>
    simp only [extendRightGo]
    rw [if_neg h]

theorem extendLeft_stuck {α : Type} [DecidableEq α] (a b : List α)
    (alo blo : Nat) : extendLeft a b alo blo alo blo 0 = (alo, blo, 0) :=
  extendLeftGo_nostep a b alo blo alo blo 0
    (fun hcon => absurd hcon.1 (lt_irrefl _)) alo

theorem flm_of_ahi_le {α : Type} [DecidableEq α] (a b : List α)
    (alo ahi blo bhi : Nat) (h : ahi ≤ alo) :
    flm a b alo ahi blo bhi = (alo, blo, 0) := by
  have h0 : ahi - alo = 0 := by omega
  have hR : extendRight a b ahi bhi alo blo 0 = 0 := by
    refine extendRightGo_nostep a b ahi bhi alo blo 0 (fun hcon => ?_) _
    have := hcon.1
    omega
  simp only [flm, h0]
  rw [show (List.range' alo 0 : List Nat) = [] from rfl]
  simp only [mainLoop]
  try dsimp only
  rw [extendLeft_stuck]
  try dsimp only
  rw [hR]

theorem flm_of_bhi_le {α : Type} [DecidableEq α] (a b : List α)
    (alo ahi blo bhi : Nat) (h : bhi ≤ blo) :
    flm a b alo ahi blo bhi = (alo, blo, 0) := by
  have hR : extendRight a b ahi bhi alo blo 0 = 0 := by
    refine extendRightGo_nostep a b ahi bhi alo blo 0 (fun hcon => ?_) _
    have := hcon.2.1
    omega
  simp only [flm]
  rw [mainLoop_stuck a b blo bhi h]
  try dsimp only
  rw [extendLeft_stuck]
  try dsimp only
  rw [hR]

/-- The window bound for a nonempty block returned by
`find_longest_match`, valid for arbitrary windows. -/
theorem flm_k_bounds {α : Type} [DecidableEq α] (a b : List α)
    (alo ahi blo bhi : Nat) (hk : (flm a b alo ahi blo bhi).2.2 ≠ 0) :
    alo ≤ (flm a b alo ahi blo bhi).1 ∧
      blo ≤ (flm a b alo ahi blo bhi).2.1 ∧
      (flm a b alo ahi blo bhi).1 + (flm a b alo ahi blo bhi).2.2 ≤ ahi ∧
      (flm a b alo ahi blo bhi).2.1 + (flm a b alo ahi blo bhi).2.2 ≤ bhi := by
  by_cases h1 : ahi ≤ alo
  · rw [flm_of_ahi_le a b alo ahi blo bhi h1] at hk
    exact absurd rfl hk
  · by_cases h2 : bhi ≤ blo
    · rw [flm_of_bhi_le a b alo ahi blo bhi h2] at hk
      exact absurd rfl hk
    · have := flm_bounds a b alo ahi blo bhi (by omega) (by omega)
      dsimp only [BB] at this
      exact this

/-- Size of a `(alo, ahi, blo, bhi)` window, for the queue termination
measure. -/
def wsize (w : Nat × Nat × Nat × Nat) : Nat :=
  (w.2.1 - w.1) + (w.2.2.2 - w.2.2.1)

/-- Termination measure of the work queue. -/
def qmeasure (q : List (Nat × Nat × Nat × Nat)) : Nat :=
  (q.map (fun w => wsize w + 1)).sum

/-- The queue-driven loop of `SequenceMatcher.get_matching_blocks`.
Python's `queue.pop()` takes the most recently appended window; we
represent the stack with its top at the head, pushing the left
sub-window first and the right sub-window second, exactly as the
Python `append`s do.  The fuel is initialised to `qmeasure` of the
initial queue; each step strictly decreases `qmeasure` (the popped
window's measure exceeds the measures of the at most two strictly
smaller sub-windows it pushes, by `flm_k_bounds`), and
`qmeasure q ≥ q.length`, so the fuel never reaches `0` with a nonempty
queue. -/
def gmbGoF {α : Type} [DecidableEq α] (a b : List α) :
    Nat → List (Nat × Nat × Nat × Nat) → List (Nat × Nat × Nat) →
    List (Nat × Nat × Nat)
  | 0, _, acc => acc
  | _ + 1, [], acc => acc
  | fuel + 1, (alo, ahi, blo, bhi) :: queue, acc =>
    let r := flm a b alo ahi blo bhi
    if r.2.2 ≠ 0 then
      let q1 := if alo < r.1 ∧ blo < r.2.1 then (alo, r.1, blo, r.2.1) :: queue
                else queue
      let q2 := if r.1 + r.2.2 < ahi ∧ r.2.1 + r.2.2 < bhi then
                  (r.1 + r.2.2, ahi, r.2.1 + r.2.2, bhi) :: q1
                else q1
      gmbGoF a b fuel q2 (acc ++ [r])
    else gmbGoF a b fuel queue acc

/-- Lexicographic order on `(i, j, k)` block triples, as Python compares
tuples in `matching_blocks.sort()`. -/
def blockLE (x y : Nat × Nat × Nat) : Bool :=
  decide (x.1 < y.1) ||
    (decide (x.1 = y.1) &&
      (decide (x.2.1 < y.2.1) ||
        (decide (x.2.1 = y.2.1) && decide (x.2.2 ≤ y.2.2))))

/-- Insertion step of the sort. -/
def insertBlock (x : Nat × Nat × Nat) :
    List (Nat × Nat × Nat) → List (Nat × Nat × Nat)
  | [] => [x]
  | y :: ys => if blockLE x y then x :: y :: ys else y :: insertBlock x ys

/-- `matching_blocks.sort()`: Python's sort is a stable mergesort on the
lexicographic tuple order; the collected blocks have pairwise distinct
`i` components (they occupy disjoint `a`-intervals), so every comparison
sort computes the same list and we model it with insertion sort. -/
def sortBlocks : List (Nat × Nat × Nat) → List (Nat × Nat × Nat)
  | [] => []
  | x :: xs => insertBlock x (sortBlocks xs)

/-- The adjacent-block collapsing loop of `get_matching_blocks`
(state `i1, j1, k1` starts at `(0, 0, 0)`). -/
def collapseGo : Nat → Nat → Nat → List (Nat × Nat × Nat) →
    List (Nat × Nat × Nat)
  | i1, j1, k1, [] => if k1 ≠ 0 then [(i1, j1, k1)] else []
  | i1, j1, k1, (i2, j2, k2) :: rest =>
    if i1 + k1 = i2 ∧ j1 + k1 = j2 then collapseGo i1 j1 (k1 + k2) rest
    else if k1 ≠ 0 then (i1, j1, k1) :: collapseGo i2 j2 k2 rest
    else collapseGo i2 j2 k2 rest

/-- `SequenceMatcher.get_matching_blocks()`: queue, sort, collapse, and
the `(la, lb, 0)` sentinel. -/
def getMatchingBlocks {α : Type} [DecidableEq α] (a b : List α) :
    List (Nat × Nat × Nat) :=
  collapseGo 0 0 0
      (sortBlocks (gmbGoF a b (qmeasure [(0, a.length, 0, b.length)])
        [(0, a.length, 0, b.length)] [])) ++
    [(a.length, b.length, 0)]

/-- `SequenceMatcher.ratio()` = `_calculate_ratio(matches, la + lb)`,
as an exact rational. -/
def ratioValue {α : Type} [DecidableEq α] (a b : List α) : ℚ :=
  let m := ((getMatchingBlocks a b).map (fun t => t.2.2)).sum
  if a.length + b.length ≠ 0 then
    2 * (m : ℚ) / ((a.length : ℚ) + (b.length : ℚ))
  else 1

/-! ### Opcodes and grouped opcodes -/

/-- The opcode tags of `SequenceMatcher.get_opcodes`. -/
inductive Tag
  | replace
  | delete
  | insert
  | equal
deriving DecidableEq, Repr

/-- One `(tag, i1, i2, j1, j2)` opcode. -/
structure Opcode where
  tag : Tag
  i1 : Nat
  i2 : Nat
  j1 : Nat
  j2 : Nat
deriving DecidableEq, Repr

/-- The loop body of `get_opcodes` over the matching blocks, carrying the
`(i, j)` cursor. -/
def opcodesGo : Nat → Nat → List (Nat × Nat × Nat) → List Opcode
  | _, _, [] => []
  | i, j, (ai, bj, size) :: rest =>
    let pre : List Opcode :=
      if i < ai ∧ j < bj then [⟨Tag.replace, i, ai, j, bj⟩]
      else if i < ai then [⟨Tag.delete, i, ai, j, bj⟩]
      else if j < bj then [⟨Tag.insert, i, ai, j, bj⟩]
      else []
    let eqOps : List Opcode :=
      if size ≠ 0 then [⟨Tag.equal, ai, ai + size, bj, bj + size⟩] else []
    pre ++ eqOps ++ opcodesGo (ai + size) (bj + size) rest

/-- `SequenceMatcher.get_opcodes()`. -/
def getOpcodes {α : Type} [DecidableEq α] (a b : List α) : List Opcode :=
  opcodesGo 0 0 (getMatchingBlocks a b)

/-- The leading-group fixup of `get_grouped_opcodes`: trim a leading
equal opcode to at most `n` lines of context. -/
def fixupHead (n : Nat) : List Opcode → List Opcode
  | [] => []
  | c :: rest =>
    if c.tag = Tag.equal then
      ⟨c.tag, max c.i1 (c.i2 - n), c.i2, max c.j1 (c.j2 - n), c.j2⟩ :: rest
    else c :: rest

/-- The trailing-group fixup of `get_grouped_opcodes`. -/
def fixupLast (n : Nat) : List Opcode → List Opcode
  | [] => []
  | [c] =>
    if c.tag = Tag.equal then
      [⟨c.tag, c.i1, min c.i2 (c.i1 + n), c.j1, min c.j2 (c.j1 + n)⟩]
    else [c]
  | c :: c2 :: rest => c :: fixupLast n (c2 :: rest)

/-- The grouping loop of `get_grouped_opcodes`: split the opcode stream at
equal opcodes wider than `2 n`, trimming context on both sides; a final
group is emitted unless it is a single equal opcode. -/
def groupLoop (n : Nat) : List Opcode → List Opcode → List (List Opcode)
  | group, [] =>
    if group ≠ [] ∧ ¬(group.length = 1 ∧ group.head?.map Opcode.tag = some Tag.equal)
    then [group] else []
  | group, c :: rest =>
    if c.tag = Tag.equal ∧ n + n < c.i2 - c.i1 then
      (group ++ [⟨c.tag, c.i1, min c.i2 (c.i1 + n), c.j1, min c.j2 (c.j1 + n)⟩]) ::
        groupLoop n [⟨c.tag, max c.i1 (c.i2 - n), c.i2, max c.j1 (c.j2 - n), c.j2⟩] rest
    else groupLoop n (group ++ [c]) rest

/-- `SequenceMatcher.get_grouped_opcodes(n)` (the generator, as a list of
groups), including the `[("equal", 0, 1, 0, 1)]` placeholder for an empty
opcode list. -/
def getGroupedOpcodes {α : Type} [DecidableEq α] (a b : List α) (n : Nat) :
    List (List Opcode) :=
  let codes0 := getOpcodes a b
  let codes1 := if codes0 = [] then [⟨Tag.equal, 0, 1, 0, 1⟩] else codes0
  groupLoop n [] (fixupLast n (fixupHead n codes1))

/-! ### `difflib.unified_diff` with `lineterm=""` -/

/-- Decimal digits of a natural number (accumulator form); the fuel
stays strictly above `n` (division by ten shrinks `n` faster than the
fuel), so the `0` case is unreachable from `natToChars`. -/
def natToCharsGo : Nat → Nat → List Char → List Char
  | 0, _, acc => acc
  | fuel + 1, n, acc =>
    if n < 10 then Char.ofNat (48 + n) :: acc
    else natToCharsGo fuel (n / 10) (Char.ofNat (48 + n % 10) :: acc)

/-- Decimal rendering of a natural number. -/
def natToChars (n : Nat) : List Char :=
  natToCharsGo (n + 1) n []

/-- `difflib._format_range_unified(start, stop)`. -/
def formatRangeUnified (start stop : Nat) : List Char :=
  let beginning := start + 1
  let length := stop - start
  if length = 1 then natToChars beginning
  else
    natToChars (if length = 0 then beginning - 1 else beginning) ++
      [ ',' ] ++ natToChars length

/-- The body lines a single opcode contributes to the unified diff
(`' '`/`'-'`/`'+'` prefixed source lines). -/
def opLines (a b : List (List Char)) (c : Opcode) : List (List Char) :=
  match c.tag with
  | Tag.equal => (slice a c.i1 (c.i2 - c.i1)).map (fun l => ' ' :: l)
  | Tag.replace =>
    (slice a c.i1 (c.i2 - c.i1)).map (fun l => '-' :: l) ++
      (slice b c.j1 (c.j2 - c.j1)).map (fun l => '+' :: l)
  | Tag.delete => (slice a c.i1 (c.i2 - c.i1)).map (fun l => '-' :: l)
  | Tag.insert => (slice b c.j1 (c.j2 - c.j1)).map (fun l => '+' :: l)

/-- The `@@ -r1 +r2 @@` header line of a group. -/
def groupHeader (g : List Opcode) : List Char :=
  let first := g.headD ⟨Tag.equal, 0, 0, 0, 0⟩
  let last := g.getLastD ⟨Tag.equal, 0, 0, 0, 0⟩
  ("@@ -".data) ++ formatRangeUnified first.i1 last.i2 ++
    (" +".data) ++ formatRangeUnified first.j1 last.j2 ++ (" @@".data)

/-- `difflib.unified_diff(a, b, fromfile, tofile, n, lineterm="")` as the
list of yielded strings (no file dates, as app.py passes none): the two
`---`/`+++` header lines are yielded before the first group only. -/
def unifiedDiffLines (a b : List (List Char)) (fromfile tofile : List Char)
    (n : Nat) : List (List Char) :=
  let groups := getGroupedOpcodes a b n
  if groups = [] then []
  else
    ("--- ".data ++ fromfile) :: ("+++ ".data ++ tofile) ::
      groups.flatMap (fun g => groupHeader g :: g.flatMap (opLines a b))

/-- `unified_diff_text` from app.py: join the generated lines with
newlines; the Python `or "(no differences)"` takes the sentinel exactly
when the generator yields nothing (a nonempty generation starts with the
nonempty `--- ` header, so its join is never the empty string). -/
def unified_diff_text (left_lines right_lines : List (List Char))
    (left_name right_name : List Char) (n_context : Nat) : List Char :=
  let ys := unifiedDiffLines left_lines right_lines left_name right_name n_context
  if ys = [] then ("(no differences)".data) else joinSep [ '\n' ] ys

/-- `similarity_scores` from app.py: the two `SequenceMatcher` ratios and
the token Jaccard score.  The Python token sets are modelled by
deduplicated lists; `len(A & B)` and `len(A | B)` are the corresponding
counts of distinct common and distinct combined tokens. -/
def similarity_scores (a b : List Char) : ℚ × ℚ × ℚ :=
  let sm_char := ratioValue a b
  let sm_line := ratioValue (pySplitlines a) (pySplitlines b)
  let toks_a := (findallWords (pyLower a)).dedup
  let toks_b := (findallWords (pyLower b)).dedup
  let interLen := (toks_a.filter (fun t => decide (t ∈ toks_b))).length
  let unionLen := toks_a.length + (toks_b.filter (fun t => decide (t ∉ toks_a))).length
  let jacc : ℚ :=
    if toks_a ≠ [] ∨ toks_b ≠ [] then (interLen : ℚ) / (unionLen : ℚ) else 1
  (sm_char, sm_line, jacc)


/-! ### `parse_unified_diff` -/

/-- ASCII digit test (`\\d`), as a code-point window (`'0'` is 48,
`'9'` is 57). -/
def isDigitCh (c : Char) : Bool :=
  48 ≤ c.toNat && c.toNat ≤ 57

/-- Numeric value of a digit string. -/
def digitsToNat (ds : List Char) : Nat :=
  ds.foldl (fun n c => 10 * n + (c.toNat - 48)) 0

/-- Strip an exact prefix, or fail. -/
def stripPrefixCh (p s : List Char) : Option (List Char) :=
  if p.isPrefixOf s then some (s.drop p.length) else none

/-- The `,?` step of the header pattern: drop one optional comma. -/
def commaStrip : List Char → List Char
  | ',' :: t => t
  | r => r

/-- `re.match(r"@@ -(\\d+),?(\\d*) \\+(\\d+),?(\\d*) @@", line)`, returning
`(old_start, old_len, new_start, new_len)` with the omitted-length
defaults already applied (`int(m.group(2) or "1")`).  On this pattern the
regex engine is deterministic — maximal digit munching with an optional
comma never requires backtracking — so a direct scanner is an exact
model; trailing characters after the closing ` @@` are ignored, as
`re.match` only anchors the start. -/
def headerMatch (l : List Char) : Option (Nat × Nat × Nat × Nat) :=
  match stripPrefixCh ("@@ -".data) l with
  | none => none
  | some r1 =>
    let d1 := r1.takeWhile isDigitCh
    let r2 := r1.dropWhile isDigitCh
    if d1 = [] then none else
    let r3 := commaStrip r2
    let d2 := r3.takeWhile isDigitCh
    let r4 := r3.dropWhile isDigitCh
    match stripPrefixCh (" +".data) r4 with
    | none => none
    | some r5 =>
      let d3 := r5.takeWhile isDigitCh
      let r6 := r5.dropWhile isDigitCh
      if d3 = [] then none else
      let r7 := commaStrip r6
      let d4 := r7.takeWhile isDigitCh
      let r8 := r7.dropWhile isDigitCh
      match stripPrefixCh (" @@".data) r8 with
      | none => none
      | some _ =>
        some (digitsToNat d1, if d2 = [] then 1 else digitsToNat d2,
              digitsToNat d3, if d4 = [] then 1 else digitsToNat d4)

/-- The operation kinds of a parsed hunk. -/
inductive OpKind
  | del
  | add
  | ctx
deriving DecidableEq, Repr

/-- One parsed hunk operation. -/
structure Op where
  op : OpKind
  text : List Char
deriving DecidableEq, Repr

/-- One parsed hunk. -/
structure Hunk where
  old_start : Nat
  old_len : Nat
  new_start : Nat
  new_len : Nat
  ops : List Op
  old_snippet : List Char
  new_snippet : List Char
deriving DecidableEq, Repr

/-- The inner `while` of `parse_unified_diff`: consume hunk-body lines up
to (excluding) the next `"@@ "` line or the end, classifying each by its
leading marker; `-` → del (old side), `+` → add (new side), space → ctx
(both sides); the `"\\ No newline at end of file"` marker and every other
line (the `elif` chain has no final `else`) contribute nothing.  Returns
`(ops, old_buf, new_buf, remaining lines)`. -/
def consumeBody : List (List Char) →
    List Op × List (List Char) × List (List Char) × List (List Char)
  | [] => ([], [], [], [])
  | l :: rest =>
    if pyStartswith l ("@@ ".data) then ([], [], [], l :: rest)
    else
      let s := consumeBody rest
      if pyStartswith l ("-".data) then
        (⟨OpKind.del, l.drop 1⟩ :: s.1, l.drop 1 :: s.2.1, s.2.2.1, s.2.2.2)
      else if pyStartswith l ("+".data) then
        (⟨OpKind.add, l.drop 1⟩ :: s.1, s.2.1, l.drop 1 :: s.2.2.1, s.2.2.2)
      else if pyStartswith l (" ".data) then
        (⟨OpKind.ctx, l.drop 1⟩ :: s.1, l.drop 1 :: s.2.1,
         l.drop 1 :: s.2.2.1, s.2.2.2)
      else s

theorem consumeBody_rest_length (ls : List (List Char)) :
    (consumeBody ls).2.2.2.length ≤ ls.length := by
  induction ls with
  | nil => simp [consumeBody]
  | cons l rest ih =>
    simp only [consumeBody]
    split
    · simp
    · split
      · simp only [List.length_cons]
        try dsimp only
        omega
      · split
        · simp only [List.length_cons]
          try dsimp only
          omega
        · split
          · simp only [List.length_cons]
            try dsimp only
            omega
          · simp only [List.length_cons]
            try dsimp only
            omega

/-- The outer loop of `parse_unified_diff` over the split lines: a line
passing both the `startswith("@@ ")` test and the header regex starts a
hunk (its body parsed by `consumeBody`, the two snippets joined with
newlines); every other line is skipped.  The fuel is initialised to the
number of lines; it dominates the length of the remaining line list
(`consumeBody` returns a suffix of its input, `consumeBody_rest_length`),
so the `0` case is unreachable from `parse_unified_diff`. -/
def parseLinesGo : Nat → List (List Char) → List Hunk
  | 0, _ => []
  | _ + 1, [] => []
  | fuel + 1, l :: rest =>
    if pyStartswith l ("@@ ".data) then
      match headerMatch l with
      | none => parseLinesGo fuel rest
      | some (os, ol, ns, nl) =>
        let r := consumeBody rest
        { old_start := os, old_len := ol, new_start := ns, new_len := nl,
          ops := r.1,
          old_snippet := joinSep [ '\n' ] r.2.1,
          new_snippet := joinSep [ '\n' ] r.2.2.1 } :: parseLinesGo fuel r.2.2.2
    else parseLinesGo fuel rest

/-- `parse_unified_diff` from app.py. -/
def parse_unified_diff (unified : List Char) : List Hunk :=
  parseLinesGo (pySplitlines unified).length (pySplitlines unified)

/-- `parseLinesGo` on exactly enough fuel; `parse_unified_diff` is this
applied to the split lines. -/
def parseL (ls : List (List Char)) : List Hunk :=
  parseLinesGo ls.length ls

/-- One range of the hunk-header pattern
`-<start>[,<len>]` / `+<start>[,<len>]`: the start digits followed by the
optional `,<len>` part (a comma whose digit group may itself be empty,
since the pattern is `,?(\\d*)`). -/
def rangePart (d : List Char) (g : Option (List Char)) : List Char :=
  d ++ (match g with | none => [] | some d2 => ',' :: d2)

/-- The length a parsed header range denotes: the digits when a nonempty
digit group is present, else the default `1`
(`int(m.group(2) or "1")`). -/
def optLen (g : Option (List Char)) : Nat :=
  match g with
  | none => 1
  | some d => if d = [] then 1 else digitsToNat d


/-! ### `simple_heuristics` -/

/-- Whole-word occurrence at position `i` (regex `\\b w \\b` at `i`): the
word matches and both neighbours (when present) are non-word characters. -/
def wordAt (t w : List Char) (i : Nat) : Bool :=
  decide (slice t i w.length = w) &&
  (decide (i = 0) || !isWordChar (t.getD (i - 1) ' ')) &&
  !isWordChar (t.getD (i + w.length) ' ')

/-- `re.search(r"\\b w \\b", t)` for a fixed word `w`. -/
def hasWord (t w : List Char) : Bool :=
  (List.range (t.length + 1)).any (fun i => wordAt t w i)

/-- Start character of the `_NUMERIC_ASSIGN_RE` identifier:
`[A-Za-z_]`. -/
def isIdentStart (c : Char) : Bool :=
  ('a' ≤ c && c ≤ 'z') || ('A' ≤ c && c ≤ 'Z') || c = '_'

/-- `_NUMERIC_ASSIGN_RE.match(s)` for
`^\\s*([A-Za-z_][A-Za-z0-9_]*)\\s*=\\s*(-?\\d+(\\.\\d+)?)\\s*(#.*)?$`,
returning the identifier and the numeric value (`float(m.group(2))`,
idealised as an exact rational).  The pattern is deterministic (greedy
munching never needs backtracking), and `$` matches at the end or just
before a single final newline; `.` does not match newlines, so after an
optional `#`-comment the remainder must be empty or a lone final
newline. -/
def numericAssignMatch (s : List Char) : Option (List Char × ℚ) :=
  let s1 := s.dropWhile pyIsSpace
  match s1 with
  | [] => none
  | c :: rest =>
    if isIdentStart c then
      let ident := c :: rest.takeWhile isWordChar
      let r1 := (rest.dropWhile isWordChar).dropWhile pyIsSpace
      match r1 with
      | '=' :: r3 =>
        let r4 := r3.dropWhile pyIsSpace
        let neg := match r4 with | '-' :: _ => true | _ => false
        let r5 := match r4 with | '-' :: t => t | _ => r4
        let d := r5.takeWhile isDigitCh
        let r6 := r5.dropWhile isDigitCh
        if d = [] then none else
        let frac :=
          match r6 with
          | '.' :: t => if t.takeWhile isDigitCh = [] then [] else t.takeWhile isDigitCh
          | _ => []
        let r7 :=
          match r6 with
          | '.' :: t => if t.takeWhile isDigitCh = [] then r6 else t.dropWhile isDigitCh
          | _ => r6
        let r8 := r7.dropWhile pyIsSpace
        let r9 :=
          match r8 with
          | '#' :: t => t.dropWhile (fun c2 => !decide (c2 = '\n'))
          | _ => r8
        if r9 = [] ∨ r9 = [ '\n' ] then
          let v : ℚ := (digitsToNat d : ℚ) +
            (digitsToNat frac : ℚ) / (10 : ℚ) ^ frac.length
          some (ident, if neg then -v else v)
        else none
      | _ => none
    else none

/-- One `numeric_changes` entry. -/
structure NumericChange where
  key : List Char
  old : ℚ
  new : ℚ
deriving DecidableEq, Repr

/-- The result record of `simple_heuristics`. -/
structure HeuristicFindings where
  risk_flags : List (List Char)
  numeric_changes : List NumericChange
  removed_keywords : List (List Char)
  added_keywords : List (List Char)
deriving DecidableEq, Repr

/-- Code-point lexicographic comparison of strings (Python `<` on
`str`). -/
def lexLt : List Char → List Char → Bool
  | [], [] => false
  | [], _ :: _ => true
  | _ :: _, [] => false
  | c :: cs, d :: ds =>
    if c.toNat < d.toNat then true
    else if d.toNat < c.toNat then false
    else lexLt cs ds

/-- Sorted insertion for `sortStrings`. -/
def insertSorted (x : List Char) : List (List Char) → List (List Char)
  | [] => [x]
  | y :: ys => if lexLt x y then x :: y :: ys else y :: insertSorted x ys

/-- Insertion sort by code-point order. -/
def sortStrings : List (List Char) → List (List Char)
  | [] => []
  | x :: xs => insertSorted x (sortStrings xs)

/-- Python `sorted(set(l))` for strings: the ascending list of the
distinct elements (the iteration order of the intermediate set is
irrelevant after sorting). -/
def sortedSet (l : List (List Char)) : List (List Char) :=
  sortStrings l.dedup

/-- Python substring test (`pat in t`). -/
def containsSub (pat t : List Char) : Bool :=
  decide (pat <:+: t)

/-- The four per-operation flag rules of `simple_heuristics`, in source
order. -/
def opFlags (o : Op) : List (List Char) :=
  (if o.op = OpKind.del ∧ containsSub ("try:".data) o.text then
    [("removed_try_block".data)] else []) ++
  (if o.op = OpKind.del ∧ containsSub ("assert ".data) o.text then
    [("removed_assert".data)] else []) ++
  (if o.op = OpKind.del ∧ (hasWord o.text ("log".data) ∨
      hasWord o.text ("logger".data)) then
    [("removed_logging".data)] else []) ++
  (if o.op = OpKind.add ∧ (hasWord (pyLower o.text) ("todo".data) ∨
      hasWord (pyLower o.text) ("fixme".data)) then
    [("todo_added".data)] else [])

/-- The inner `for a in adds` step of the numeric-assignment loop. -/
def hnInner (kv : List Char × ℚ) (acc2 : List NumericChange × List (List Char))
    (aLine : List Char) : List NumericChange × List (List Char) :=
  match numericAssignMatch aLine with
  | some kv2 =>
    if kv2.1 = kv.1 then
      (acc2.1 ++ [⟨kv.1, kv.2, kv2.2⟩],
       acc2.2 ++
         (if kv2.2 < kv.2 then [("reduced_".data) ++ kv.1]
          else if kv.2 < kv2.2 then [("increased_".data) ++ kv.1]
          else []))
    else acc2
  | none => acc2

/-- The outer `for d in dels` step of the numeric-assignment loop. -/
def hnOuter (adds : List (List Char))
    (acc : List NumericChange × List (List Char)) (d : List Char) :
    List NumericChange × List (List Char) :=
  match numericAssignMatch d with
  | none => acc
  | some kv => adds.foldl (hnInner kv) acc

/-- The numeric-assignment loop of `simple_heuristics` for one hunk:
every matching deleted line is paired with every matching added line of
the same identifier, producing a `numeric_changes` entry and a
`reduced_`/`increased_` flag on strict decrease/increase. -/
def hunkNumeric (h : Hunk) : List NumericChange × List (List Char) :=
  let dels := (h.ops.filter (fun o => decide (o.op = OpKind.del))).map Op.text
  let adds := (h.ops.filter (fun o => decide (o.op = OpKind.add))).map Op.text
  dels.foldl (hnOuter adds) ([], [])

/-- The per-hunk accumulation step of `simple_heuristics` (flags from the
per-operation scan and the numeric loop, numeric entries, and the two
password keyword collections). -/
def shStep
    (acc : List (List Char) × List NumericChange × List (List Char) × List (List Char))
    (h : Hunk) :
    List (List Char) × List NumericChange × List (List Char) × List (List Char) :=
  let opfl := h.ops.flatMap opFlags
  let nm := hunkNumeric h
  let rem := (h.ops.filter (fun o =>
    decide (o.op = OpKind.del) &&
      containsSub ("password".data) (pyLower o.text))).map Op.text
  let added := (h.ops.filter (fun o =>
    decide (o.op = OpKind.add) &&
      containsSub ("password".data) (pyLower o.text))).map Op.text
  (acc.1 ++ opfl ++ nm.2, acc.2.1 ++ nm.1, acc.2.2.1 ++ rem,
   acc.2.2.2 ++ added)

/-- `simple_heuristics` from app.py. -/
def simple_heuristics (hunks : List Hunk) : HeuristicFindings :=
  let acc := hunks.foldl shStep ([], [], [], [])
  { risk_flags := sortedSet acc.1,
    numeric_changes := acc.2.1,
    removed_keywords := acc.2.2.1,
    added_keywords := acc.2.2.2 }

/-! ### `make_change_record` -/

/-- The `source` field. -/
structure SourceNames where
  left_name : List Char
  right_name : List Char
deriving DecidableEq, Repr

/-- The `stats` field. -/
structure Stats where
  lines_left : Nat
  lines_right : Nat
  char_similarity : ℚ
  line_similarity : ℚ
  token_jaccard : ℚ
  percent_different_estimate : ℚ
deriving DecidableEq, Repr

/-- One change record. -/
structure ChangeRecord where
  id : List Char
  source : SourceNames
  stats : Stats
  unified_diff : List Char
  hunks : List Hunk
  heuristics : HeuristicFindings
deriving DecidableEq, Repr

/-- `make_change_record` from app.py.  The id
`f"{time.strftime(...)}_{uuid4().hex[:6]}"` depends on the wall clock and
on randomness; both are modelled by the explicit `timeStr`/`uuidHex`
arguments. -/
def make_change_record (left_text right_text : List Char)
    (left_name right_name : List Char) (n_context : Nat) (strip_ws : Bool)
    (timeStr uuidHex : List Char) : ChangeRecord :=
  let left_lines := to_lines left_text strip_ws
  let right_lines := to_lines right_text strip_ws
  let uni := unified_diff_text left_lines right_lines left_name right_name n_context
  let hunks := parse_unified_diff uni
  let s := similarity_scores left_text right_text
  { id := timeStr ++ [ '_' ] ++ uuidHex,
    source := { left_name := left_name, right_name := right_name },
    stats := { lines_left := left_lines.length,
               lines_right := right_lines.length,
               char_similarity := pyRound s.1 4,
               line_similarity := pyRound s.2.1 4,
               token_jaccard := pyRound s.2.2 4,
               percent_different_estimate := pyRound ((1 - s.1) * 100) 2 },
    unified_diff := uni,
    hunks := hunks,
    heuristics := simple_heuristics hunks }


/-! ### `save_jsonl` and the JSON serialisation

`json.dumps(r, ensure_ascii=False)` with the default separators emits a
single-line JSON object: every string is quoted with `"`, `\\` and control
characters escaped and all other characters (including non-ASCII) kept
verbatim; numbers are rendered by a newline-free numeral writer (we write
rationals as `num` or `num/den`, an idealisation of the float repr that
keeps every property at issue: a newline-free, brace-structured line).
The file system is modelled as the current content of the target
(`none` when the target cannot be opened), and the `OSError` that
`open`/`write` can raise — which `save_jsonl` does not catch — as the
`Except.error` outcome.
-/

/-- Lower-case hex digit. -/
def hexDigit (n : Nat) : Char :=
  if n < 10 then Char.ofNat (48 + n) else Char.ofNat (87 + n)

/-- Four-digit hex rendering for `\\uXXXX` escapes. -/
def hex4 (n : Nat) : List Char :=
  [hexDigit (n / 4096 % 16), hexDigit (n / 256 % 16),
   hexDigit (n / 16 % 16), hexDigit (n % 16)]

/-- The JSON string-character escaping of `json.dumps` with
`ensure_ascii=False`: escape `"` and `\\`, use the short escapes for
control characters that have them, `\\uXXXX` for the rest, and keep every
other character (ASCII or not) verbatim. -/
def escChar (c : Char) : List Char :=
  if c = '"' then [ '\\', '"' ]
  else if c = '\\' then [ '\\', '\\' ]
  else if c = '\n' then [ '\\', 'n' ]
  else if c = '\t' then [ '\\', 't' ]
  else if c = '\r' then [ '\\', 'r' ]
  else if c.toNat = 8 then [ '\\', 'b' ]
  else if c.toNat = 12 then [ '\\', 'f' ]
  else if c.toNat < 32 then [ '\\', 'u' ] ++ hex4 c.toNat
  else [c]

/-- A JSON string literal. -/
def jsonStr (s : List Char) : List Char :=
  '"' :: s.flatMap escChar ++ [ '"' ]

/-- Decimal rendering of an integer. -/
def intToChars (z : ℤ) : List Char :=
  if z < 0 then '-' :: natToChars z.natAbs else natToChars z.natAbs

/-- Newline-free numeral for a rational stat value. -/
def qToChars (q : ℚ) : List Char :=
  if q.den = 1 then intToChars q.num
  else intToChars q.num ++ [ '/' ] ++ natToChars q.den

/-- `"key": value` with the default `': '` separator. -/
def jsonKV (k v : List Char) : List Char :=
  jsonStr k ++ (": ".data) ++ v

/-- A JSON object from rendered members, `', '`-separated. -/
def jsonObj (kvs : List (List Char)) : List Char :=
  Char.ofNat 123 :: joinSep (", ".data) kvs ++ [Char.ofNat 125]

/-- A JSON array from rendered elements. -/
def jsonArr (vs : List (List Char)) : List Char :=
  '[' :: joinSep (", ".data) vs ++ [ ']' ]

/-- The `"op"` values. -/
def opKindStr : OpKind → List Char
  | OpKind.del => "del".data
  | OpKind.add => "add".data
  | OpKind.ctx => "ctx".data

/-- JSON of one hunk operation. -/
def opToJson (o : Op) : List Char :=
  jsonObj [jsonKV ("op".data) (jsonStr (opKindStr o.op)),
           jsonKV ("text".data) (jsonStr o.text)]

/-- JSON of one hunk. -/
def hunkToJson (h : Hunk) : List Char :=
  jsonObj [jsonKV ("old_start".data) (natToChars h.old_start),
           jsonKV ("old_len".data) (natToChars h.old_len),
           jsonKV ("new_start".data) (natToChars h.new_start),
           jsonKV ("new_len".data) (natToChars h.new_len),
           jsonKV ("ops".data) (jsonArr (h.ops.map opToJson)),
           jsonKV ("old_snippet".data) (jsonStr h.old_snippet),
           jsonKV ("new_snippet".data) (jsonStr h.new_snippet)]

/-- JSON of one numeric change. -/
def ncToJson (nc : NumericChange) : List Char :=
  jsonObj [jsonKV ("key".data) (jsonStr nc.key),
           jsonKV ("old".data) (qToChars nc.old),
           jsonKV ("new".data) (qToChars nc.new)]

/-- JSON of the heuristics block. -/
def heurToJson (hf : HeuristicFindings) : List Char :=
  jsonObj [jsonKV ("risk_flags".data) (jsonArr (hf.risk_flags.map jsonStr)),
           jsonKV ("numeric_changes".data) (jsonArr (hf.numeric_changes.map ncToJson)),
           jsonKV ("removed_keywords".data) (jsonArr (hf.removed_keywords.map jsonStr)),
           jsonKV ("added_keywords".data) (jsonArr (hf.added_keywords.map jsonStr))]

/-- `json.dumps(rec, ensure_ascii=False)`: the single-line JSON of a
change record, fields in construction order. -/
def recordToJson (r : ChangeRecord) : List Char :=
  jsonObj [jsonKV ("id".data) (jsonStr r.id),
           jsonKV ("source".data)
             (jsonObj [jsonKV ("left_name".data) (jsonStr r.source.left_name),
                       jsonKV ("right_name".data) (jsonStr r.source.right_name)]),
           jsonKV ("stats".data)
             (jsonObj [jsonKV ("lines_left".data) (natToChars r.stats.lines_left),
                       jsonKV ("lines_right".data) (natToChars r.stats.lines_right),
                       jsonKV ("char_similarity".data) (qToChars r.stats.char_similarity),
                       jsonKV ("line_similarity".data) (qToChars r.stats.line_similarity),
                       jsonKV ("token_jaccard".data) (qToChars r.stats.token_jaccard),
                       jsonKV ("percent_different_estimate".data)
                         (qToChars r.stats.percent_different_estimate)]),
           jsonKV ("unified_diff".data) (jsonStr r.unified_diff),
           jsonKV ("hunks".data) (jsonArr (r.hunks.map hunkToJson)),
           jsonKV ("heuristics".data) (heurToJson r.heuristics)]

/-- `save_jsonl(records, path)`: append one compact JSON object plus a
newline per record to the target opened in append mode; an unopenable
target raises, and the function installs no handler, so the error
propagates to the caller. -/
def save_jsonl (records : List ChangeRecord) (target : Option (List Char)) :
    Except Unit (List Char) :=
  match target with
  | none => Except.error ()
  | some content =>
    Except.ok (content ++ records.flatMap (fun r => recordToJson r ++ [ '\n' ]))


/-! ### Round-half-even arithmetic -/

theorem ceil_of_fract_ne {q : ℚ} (h : Int.fract q ≠ 0) : ⌈q⌉ = ⌊q⌋ + 1 := by
  rcases Int.fract_eq_zero_or_add_one_sub_ceil q with h0 | h1
  · exact absurd h0 h
  · have hfl : Int.fract q = q - ⌊q⌋ := (Int.self_sub_floor q).symm
    have hcast : (⌈q⌉ : ℚ) = (⌊q⌋ : ℚ) + 1 := by
      rw [hfl] at h1
      linarith
    exact_mod_cast hcast

theorem rhe_intCast (z : ℤ) : rhe (z : ℚ) = z := by
  unfold rhe
  rw [Int.floor_intCast, sub_self]
  norm_num

theorem rhe_neg (q : ℚ) : rhe (-q) = -rhe q := by
  by_cases h0 : Int.fract q = 0
  · have hq : q = (⌊q⌋ : ℚ) := by
      have := Int.self_sub_floor q
      rw [h0] at this
      linarith
    rw [hq, ← Int.cast_neg, rhe_intCast, rhe_intCast]
  · have hfl : ⌊-q⌋ = -⌊q⌋ - 1 := by
      rw [Int.floor_neg, ceil_of_fract_ne h0]
      ring
    have hfr : Int.fract (-q) = 1 - Int.fract q := Int.fract_neg h0
    unfold rhe
    rw [Int.self_sub_floor, Int.self_sub_floor, hfr, hfl]
    have hfub : Int.fract q < 1 := Int.fract_lt_one q
    have hflb : 0 ≤ Int.fract q := Int.fract_nonneg q
    rcases lt_trichotomy (Int.fract q) (1/2 : ℚ) with hlt | heq | hgt
    · have h1 : ¬(1 - Int.fract q < 1/2) := by linarith
      have h2 : (1 : ℚ)/2 < 1 - Int.fract q := by linarith
      rw [if_neg h1, if_pos h2, if_pos hlt]
      ring
    · have h1 : ¬(1 - Int.fract q < 1/2) := by rw [heq]; norm_num
      have h2 : ¬((1 : ℚ)/2 < 1 - Int.fract q) := by rw [heq]; norm_num
      have h3 : ¬(Int.fract q < 1/2) := by rw [heq]; norm_num
      have h4 : ¬((1 : ℚ)/2 < Int.fract q) := by rw [heq]; norm_num
      rw [if_neg h1, if_neg h2, if_neg h3, if_neg h4]
      by_cases he : Even ⌊q⌋
      · have ho : ¬Even (-⌊q⌋ - 1) := by
          rcases he with ⟨k, hk⟩
          rintro ⟨m, hm⟩
          omega
        rw [if_neg ho, if_pos he]
        ring
      · have ho : Even (-⌊q⌋ - 1) := by
          rcases Int.not_even_iff_odd.mp he with ⟨m, hm⟩
          exact ⟨-m - 1, by omega⟩
        rw [if_pos ho, if_neg he]
        ring
    · have h1 : 1 - Int.fract q < 1/2 := by linarith
      have h3 : ¬(Int.fract q < 1/2) := by linarith
      rw [if_pos h1, if_neg h3, if_pos hgt]
      ring

theorem rhe_int_add (n : ℤ) (hn : Even n) (q : ℚ) :
    rhe ((n : ℚ) + q) = n + rhe q := by
  unfold rhe
  have hf : ⌊(n : ℚ) + q⌋ = n + ⌊q⌋ := by
    rw [add_comm, Int.floor_add_int, add_comm]
  rw [hf]
  have hr : (n : ℚ) + q - ((n + ⌊q⌋ : ℤ) : ℚ) = q - ⌊q⌋ := by
    push_cast
    ring
  rw [hr]
  have he : Even (n + ⌊q⌋) ↔ Even ⌊q⌋ := by
    rw [Int.even_add]
    simp [hn]
  by_cases h1 : q - (⌊q⌋ : ℚ) < 1/2
  · rw [if_pos h1, if_pos h1]
  · rw [if_neg h1, if_neg h1]
    by_cases h2 : (1 : ℚ)/2 < q - ⌊q⌋
    · rw [if_pos h2, if_pos h2]
      ring
    · rw [if_neg h2, if_neg h2]
      by_cases h3 : Even ⌊q⌋
      · rw [if_pos (he.mpr h3), if_pos h3]
      · rw [if_neg (fun hcon => h3 (he.mp hcon)), if_neg h3]
        ring

/-- Rounding to two decimals after subtracting from 1 commutes with the
prior four-decimal rounding: both paths quantise at the same `10⁻⁴` grid
and `10⁴` is even, so the half-even tie breaks agree. -/
theorem pyRound_recompute (s : ℚ) :
    pyRound ((1 - pyRound s 4) * 100) 2 = pyRound ((1 - s) * 100) 2 := by
  unfold pyRound
  have hL : (1 - (rhe (s * 10 ^ 4) : ℚ) / (10 : ℚ) ^ 4) * 100 * (10 : ℚ) ^ 2
      = ((10 ^ 4 - rhe (s * (10 : ℚ) ^ 4) : ℤ) : ℚ) := by
    push_cast
    ring
  rw [hL, rhe_intCast]
  have hR : (1 - s) * 100 * (10 : ℚ) ^ 2
      = (((10 : ℤ) ^ 4 : ℤ) : ℚ) + -(s * (10 : ℚ) ^ 4) := by
    push_cast
    ring
  rw [hR, rhe_int_add ((10 : ℤ) ^ 4) ⟨5000, by norm_num⟩, rhe_neg]
  push_cast
  ring


/-! ### Claim theorems -/

/-- C7: two invocations of `make_change_record` with identical left text,
right text, names, context count and whitespace flag produce records
whose `stats`, `unified_diff`, `hunks` and `heuristics` fields are
pairwise identical; only the `id` (built from the time/uuid seeds) can
differ. -/
theorem C7_record_idempotent (lt rt ln rn : List Char) (n : Nat) (sw : Bool)
    (t1 u1 t2 u2 : List Char) :
    (make_change_record lt rt ln rn n sw t1 u1).stats =
        (make_change_record lt rt ln rn n sw t2 u2).stats ∧
      (make_change_record lt rt ln rn n sw t1 u1).unified_diff =
        (make_change_record lt rt ln rn n sw t2 u2).unified_diff ∧
      (make_change_record lt rt ln rn n sw t1 u1).hunks =
        (make_change_record lt rt ln rn n sw t2 u2).hunks ∧
      (make_change_record lt rt ln rn n sw t1 u1).heuristics =
        (make_change_record lt rt ln rn n sw t2 u2).heuristics :=
  ⟨rfl, rfl, rfl, rfl⟩

/-- C10: the similarity fields of the record (`char_similarity`,
`line_similarity`, `token_jaccard`, `percent_different_estimate`) are
computed from the raw input texts, so they are identical whether
`strip_ws` is true or false. -/
theorem C10_similarity_ignores_strip_ws (lt rt ln rn : List Char)
    (n : Nat) (t u : List Char) (sw1 sw2 : Bool) :
    (make_change_record lt rt ln rn n sw1 t u).stats.char_similarity =
        (make_change_record lt rt ln rn n sw2 t u).stats.char_similarity ∧
      (make_change_record lt rt ln rn n sw1 t u).stats.line_similarity =
        (make_change_record lt rt ln rn n sw2 t u).stats.line_similarity ∧
      (make_change_record lt rt ln rn n sw1 t u).stats.token_jaccard =
        (make_change_record lt rt ln rn n sw2 t u).stats.token_jaccard ∧
      (make_change_record lt rt ln rn n sw1 t u).stats.percent_different_estimate =
        (make_change_record lt rt ln rn n sw2 t u).stats.percent_different_estimate :=
  ⟨rfl, rfl, rfl, rfl⟩

/-- C2: in every record, `percent_different_estimate` equals
`round((1 − char_similarity) × 100, 2)` computed from the stored
(4-decimal-rounded) `char_similarity`: the code rounds the raw ratio, but
both quantisations agree at every input, including half-even ties. -/
theorem C2_percent_recomputable (lt rt ln rn : List Char) (n : Nat)
    (sw : Bool) (t u : List Char) :
    (make_change_record lt rt ln rn n sw t u).stats.percent_different_estimate =
      pyRound
        ((1 - (make_change_record lt rt ln rn n sw t u).stats.char_similarity) * 100)
        2 :=
  (pyRound_recompute (similarity_scores lt rt).1).symm


/-- Membership and cardinality bridge for the token-set model: the
intersection cardinality. -/
theorem inter_card_eq (x y : List (List Char)) :
    ((x.toFinset ∩ y.toFinset).card) =
      (x.dedup.filter (fun t => decide (t ∈ y.dedup))).length := by
  have hnd : (x.dedup.filter (fun t => decide (t ∈ y.dedup))).Nodup :=
    (List.nodup_dedup x).filter _
  rw [← List.toFinset_card_of_nodup hnd]
  congr 1
  ext t
  simp [List.mem_dedup]

/-- The union cardinality. -/
theorem union_card_eq (x y : List (List Char)) :
    ((x.toFinset ∪ y.toFinset).card) =
      x.dedup.length + (y.dedup.filter (fun t => decide (t ∉ x.dedup))).length := by
  have hnd : (y.dedup.filter (fun t => decide (t ∉ x.dedup))).Nodup :=
    (List.nodup_dedup y).filter _
  have hsd : y.toFinset \ x.toFinset =
      (y.dedup.filter (fun t => decide (t ∉ x.dedup))).toFinset := by
    ext t
    simp [List.mem_dedup]
  have hc := Finset.card_sdiff_add_card y.toFinset x.toFinset
  rw [Finset.union_comm] at hc
  rw [← hc, hsd, List.toFinset_card_of_nodup hnd, List.card_toFinset]
  omega

/-- C8: the token Jaccard score of `similarity_scores` is
`|A ∩ B| / |A ∪ B|` on the sets of word tokens of the lowercased texts,
`1` when both sets are empty; on `"foo bar"` versus `"bar baz"` it is
`1/3`. -/
theorem C8_token_jaccard (a b : List Char) :
    ((similarity_scores a b).2.2 =
      if (findallWords (pyLower a)).toFinset ∪ (findallWords (pyLower b)).toFinset = ∅
      then 1
      else
        (((findallWords (pyLower a)).toFinset ∩ (findallWords (pyLower b)).toFinset).card : ℚ) /
          (((findallWords (pyLower a)).toFinset ∪ (findallWords (pyLower b)).toFinset).card : ℚ)) ∧
    (similarity_scores (("foo bar").data) (("bar baz").data)).2.2 = 1/3 := by
  constructor
  · simp only [similarity_scores]
    have hcond : ((findallWords (pyLower a)).toFinset ∪ (findallWords (pyLower b)).toFinset = ∅)
        ↔ ¬((findallWords (pyLower a)).dedup ≠ [] ∨ (findallWords (pyLower b)).dedup ≠ []) := by
      simp [Finset.union_eq_empty, List.toFinset_eq_empty_iff, List.dedup_eq_nil]
    by_cases hc : (findallWords (pyLower a)).toFinset ∪ (findallWords (pyLower b)).toFinset = ∅
    · rw [if_pos hc]
      rw [if_neg (hcond.mp hc)]
    · rw [if_neg hc]
      rw [if_pos (not_not.mp (fun hn => hc (hcond.mpr hn)))]
      rw [inter_card_eq, union_card_eq]
  · with_unfolding_all rfl


/-! ### C4 support: the all-pairs reading of the numeric heuristics.

`numericPairsInner`, `numericPairsHunk` and `numericPairsSpec` are
spec-side definitions, written from the claim's words ("pairs every
matching deleted line with every matching added line of that identifier,
no dedup by key"), to be compared with the fold the code performs. -/

/-- Spec-side: entries one matching deleted line contributes, one per
matching added line of the same identifier. -/
def numericPairsInner (kv : List Char × ℚ) (adds : List (List Char)) :
    List NumericChange :=
  adds.filterMap (fun aLine =>
    match numericAssignMatch aLine with
    | some kv2 => if kv2.1 = kv.1 then some ⟨kv.1, kv.2, kv2.2⟩ else none
    | none => none)

/-- The direction flags one pair contributes. -/
def dirFlags (kv : List Char × ℚ) (kv2 : List Char × ℚ) : List (List Char) :=
  if kv2.2 < kv.2 then [("reduced_".data) ++ kv.1]
  else if kv.2 < kv2.2 then [("increased_".data) ++ kv.1]
  else []

/-- The direction flags one matching deleted line contributes. -/
def numericFlagsInner (kv : List Char × ℚ) (adds : List (List Char)) :
    List (List Char) :=
  adds.flatMap (fun aLine =>
    match numericAssignMatch aLine with
    | some kv2 => if kv2.1 = kv.1 then dirFlags kv kv2 else []
    | none => [])

/-- Spec-side: all numeric-change entries of one hunk. -/
def numericPairsHunk (dels adds : List (List Char)) : List NumericChange :=
  dels.flatMap (fun d =>
    match numericAssignMatch d with
    | none => []
    | some kv => numericPairsInner kv adds)

/-- All direction flags of one hunk. -/
def numericFlagsHunk (dels adds : List (List Char)) : List (List Char) :=
  dels.flatMap (fun d =>
    match numericAssignMatch d with
    | none => []
    | some kv => numericFlagsInner kv adds)

/-- Deleted operation texts of a hunk. -/
def delTexts (h : Hunk) : List (List Char) :=
  (h.ops.filter (fun o => decide (o.op = OpKind.del))).map Op.text

/-- Added operation texts of a hunk. -/
def addTexts (h : Hunk) : List (List Char) :=
  (h.ops.filter (fun o => decide (o.op = OpKind.add))).map Op.text

/-- Spec-side: all numeric-change entries of a hunk list, in order. -/
def numericPairsSpec (hunks : List Hunk) : List NumericChange :=
  hunks.flatMap (fun h => numericPairsHunk (delTexts h) (addTexts h))

theorem hnInner_acc (kv : List Char × ℚ) (adds : List (List Char)) :
    ∀ acc, adds.foldl (hnInner kv) acc =
      (acc.1 ++ numericPairsInner kv adds, acc.2 ++ numericFlagsInner kv adds) := by
  induction adds with
  | nil => intro acc; simp [numericPairsInner, numericFlagsInner]
  | cons aLine adds ih =>
    intro acc
    simp only [List.foldl_cons]
    rw [ih]
    simp only [numericPairsInner, numericFlagsInner, List.filterMap_cons,
      List.flatMap_cons, hnInner]
    cases hma : numericAssignMatch aLine with
    | none => simp
    | some kv2 =>
      dsimp only
      by_cases hk : kv2.1 = kv.1
      · simp only [if_pos hk, dirFlags]
        by_cases h1 : kv2.2 < kv.2
        · simp [h1]
        · by_cases h2 : kv.2 < kv2.2
          · simp [h1, h2]
          · simp [h1, h2]
      · simp [hk]

theorem hnOuter_acc (adds : List (List Char)) (dels : List (List Char)) :
    ∀ acc, dels.foldl (hnOuter adds) acc =
      (acc.1 ++ numericPairsHunk dels adds, acc.2 ++ numericFlagsHunk dels adds) := by
  induction dels with
  | nil => intro acc; simp [numericPairsHunk, numericFlagsHunk]
  | cons d dels ih =>
    intro acc
    simp only [List.foldl_cons]
    simp only [numericPairsHunk, numericFlagsHunk, List.flatMap_cons, hnOuter]
    cases hmd : numericAssignMatch d with
    | none =>
      dsimp only
      rw [ih]
      simp [numericPairsHunk, numericFlagsHunk]
    | some kv =>
      dsimp only
      rw [ih, hnInner_acc]
      simp [numericPairsHunk, numericFlagsHunk]

theorem hunkNumeric_eq (h : Hunk) :
    hunkNumeric h =
      (numericPairsHunk (delTexts h) (addTexts h),
       numericFlagsHunk (delTexts h) (addTexts h)) := by
  simp only [hunkNumeric]
  rw [hnOuter_acc]
  simp [delTexts, addTexts]

/-- Decomposition of the `simple_heuristics` fold. -/
theorem shStep_fold (hunks : List Hunk) :
    ∀ acc, hunks.foldl shStep acc =
      (acc.1 ++ hunks.flatMap (fun h => h.ops.flatMap opFlags ++ (hunkNumeric h).2),
       acc.2.1 ++ hunks.flatMap (fun h => (hunkNumeric h).1),
       acc.2.2.1 ++ hunks.flatMap (fun h => (h.ops.filter (fun o =>
         decide (o.op = OpKind.del) &&
           containsSub ("password".data) (pyLower o.text))).map Op.text),
       acc.2.2.2 ++ hunks.flatMap (fun h => (h.ops.filter (fun o =>
         decide (o.op = OpKind.add) &&
           containsSub ("password".data) (pyLower o.text))).map Op.text)) := by
  induction hunks with
  | nil => intro acc; simp
  | cons h hunks ih =>
    intro acc
    simp only [List.foldl_cons]
    rw [ih]
    simp only [shStep, List.flatMap_cons]
    refine Prod.ext ?_ (Prod.ext ?_ (Prod.ext ?_ ?_)) <;> simp

/-- C4 part 1: `numeric_changes` is exactly the all-pairs list. -/
theorem numeric_changes_eq_pairs (hunks : List Hunk) :
    (simple_heuristics hunks).numeric_changes = numericPairsSpec hunks := by
  simp only [simple_heuristics]
  rw [shStep_fold]
  simp [numericPairsSpec, hunkNumeric_eq]


/-- Lists differing at an index are different. -/
theorem ne_of_getElem2 (i : Nat) (cx cy : Char) (hne : cx ≠ cy)
    {x y : List Char} (hx : x[i]? = some cx) (hy : y[i]? = some cy) :
    x ≠ y := by
  intro h
  rw [h, hy] at hx
  exact hne (Option.some.inj hx).symm

theorem mem_insertSorted (x y : List Char) (l : List (List Char)) :
    x ∈ insertSorted y l ↔ x = y ∨ x ∈ l := by
  induction l with
  | nil => simp [insertSorted]
  | cons z zs ih =>
    simp only [insertSorted]
    split
    · simp
    · simp [ih]
      tauto

theorem mem_sortStrings (x : List Char) (l : List (List Char)) :
    x ∈ sortStrings l ↔ x ∈ l := by
  induction l with
  | nil => simp [sortStrings]
  | cons z zs ih => simp [sortStrings, mem_insertSorted, ih]

theorem mem_sortedSet (x : List Char) (l : List (List Char)) :
    x ∈ sortedSet l ↔ x ∈ l := by
  simp [sortedSet, mem_sortStrings, List.mem_dedup]

/-- Every flag the per-operation scan can raise is one of the four
constants. -/
theorem opFlags_shape (o : Op) (x : List Char) (hx : x ∈ opFlags o) :
    x = ("removed_try_block".data) ∨ x = ("removed_assert".data) ∨
      x = ("removed_logging".data) ∨ x = ("todo_added".data) := by
  simp only [opFlags, List.mem_append] at hx
  rcases hx with (((hx | hx) | hx) | hx)
  · split at hx
    · simp at hx; exact Or.inl hx
    · simp at hx
  · split at hx
    · simp at hx; exact Or.inr (Or.inl hx)
    · simp at hx
  · split at hx
    · simp at hx; exact Or.inr (Or.inr (Or.inl hx))
    · simp at hx
  · split at hx
    · simp at hx; exact Or.inr (Or.inr (Or.inr hx))
    · simp at hx

theorem mem_dirFlags (kv kv2 : List Char × ℚ) (x : List Char) :
    x ∈ dirFlags kv kv2 ↔
      (kv2.2 < kv.2 ∧ x = ("reduced_".data) ++ kv.1) ∨
        (kv.2 < kv2.2 ∧ x = ("increased_".data) ++ kv.1) := by
  simp only [dirFlags]
  by_cases h1 : kv2.2 < kv.2
  · have h2 : ¬kv.2 < kv2.2 := lt_asymm h1
    simp [h1, h2]
  · by_cases h2 : kv.2 < kv2.2
    · simp [h1, h2]
    · simp [h1, h2]

theorem mem_matchFlagsInner (kv : List Char × ℚ) (aLine : List Char)
    (x : List Char) :
    (x ∈ (match numericAssignMatch aLine with
          | some kv2 => if kv2.1 = kv.1 then dirFlags kv kv2 else []
          | none => ([] : List (List Char)))) ↔
      ∃ kv2, numericAssignMatch aLine = some kv2 ∧ kv2.1 = kv.1 ∧
        x ∈ dirFlags kv kv2 := by
  cases h : numericAssignMatch aLine with
  | none => simp
  | some kv2 =>
    dsimp only
    by_cases hk : kv2.1 = kv.1
    · simp [hk]
    · simp [hk]

theorem mem_matchPairsInner (kv : List Char × ℚ) (aLine : List Char)
    (nc : NumericChange) :
    ((match numericAssignMatch aLine with
      | some kv2 =>
        if kv2.1 = kv.1 then some (⟨kv.1, kv.2, kv2.2⟩ : NumericChange) else none
      | none => none) = some nc) ↔
      ∃ kv2, numericAssignMatch aLine = some kv2 ∧ kv2.1 = kv.1 ∧
        nc = ⟨kv.1, kv.2, kv2.2⟩ := by
  cases h : numericAssignMatch aLine with
  | none => simp
  | some kv2 =>
    dsimp only
    by_cases hk : kv2.1 = kv.1
    · simp [hk]
      constructor
      · intro h2; exact h2.symm
      · intro h2; exact h2.symm
    · simp [hk]

theorem mem_numericFlagsHunk (dels adds : List (List Char)) (x : List Char) :
    x ∈ numericFlagsHunk dels adds ↔
      ∃ d ∈ dels, ∃ kv, numericAssignMatch d = some kv ∧
        ∃ a ∈ adds, ∃ kv2, numericAssignMatch a = some kv2 ∧ kv2.1 = kv.1 ∧
          x ∈ dirFlags kv kv2 := by
  simp only [numericFlagsHunk, List.mem_flatMap]
  constructor
  · rintro ⟨d, hd, hx⟩
    refine ⟨d, hd, ?_⟩
    cases h : numericAssignMatch d with
    | none => rw [h] at hx; simp at hx
    | some kv =>
      rw [h] at hx
      dsimp only at hx
      simp only [numericFlagsInner, List.mem_flatMap] at hx
      obtain ⟨a, ha, hx⟩ := hx
      rw [mem_matchFlagsInner] at hx
      obtain ⟨kv2, h1, h2, h3⟩ := hx
      exact ⟨kv, rfl, a, ha, kv2, h1, h2, h3⟩
  · rintro ⟨d, hd, kv, hkv, a, ha, kv2, h1, h2, h3⟩
    refine ⟨d, hd, ?_⟩
    rw [hkv]
    dsimp only
    simp only [numericFlagsInner, List.mem_flatMap]
    exact ⟨a, ha, (mem_matchFlagsInner kv a x).mpr ⟨kv2, h1, h2, h3⟩⟩

theorem mem_numericPairsHunk (dels adds : List (List Char)) (nc : NumericChange) :
    nc ∈ numericPairsHunk dels adds ↔
      ∃ d ∈ dels, ∃ kv, numericAssignMatch d = some kv ∧
        ∃ a ∈ adds, ∃ kv2, numericAssignMatch a = some kv2 ∧ kv2.1 = kv.1 ∧
          nc = ⟨kv.1, kv.2, kv2.2⟩ := by
  simp only [numericPairsHunk, List.mem_flatMap]
  constructor
  · rintro ⟨d, hd, hx⟩
    refine ⟨d, hd, ?_⟩
    cases h : numericAssignMatch d with
    | none => rw [h] at hx; simp at hx
    | some kv =>
      rw [h] at hx
      dsimp only at hx
      simp only [numericPairsInner, List.mem_filterMap] at hx
      obtain ⟨a, ha, hx⟩ := hx
      rw [mem_matchPairsInner] at hx
      obtain ⟨kv2, h1, h2, h3⟩ := hx
      exact ⟨kv, rfl, a, ha, kv2, h1, h2, h3⟩
  · rintro ⟨d, hd, kv, hkv, a, ha, kv2, h1, h2, h3⟩
    refine ⟨d, hd, ?_⟩
    rw [hkv]
    dsimp only
    simp only [numericPairsInner, List.mem_filterMap]
    exact ⟨a, ha, (mem_matchPairsInner kv a nc).mpr ⟨kv2, h1, h2, h3⟩⟩

/-- Membership in the final `risk_flags` list. -/
theorem mem_risk_flags (hunks : List Hunk) (x : List Char) :
    x ∈ (simple_heuristics hunks).risk_flags ↔
      ∃ h ∈ hunks, x ∈ h.ops.flatMap opFlags ∨
        x ∈ numericFlagsHunk (delTexts h) (addTexts h) := by
  simp only [simple_heuristics]
  rw [shStep_fold]
  simp only [List.nil_append, mem_sortedSet, List.mem_flatMap, List.mem_append]
  constructor
  · rintro ⟨h, hh, hx⟩
    rw [hunkNumeric_eq] at hx
    exact ⟨h, hh, hx⟩
  · rintro ⟨h, hh, hx⟩
    refine ⟨h, hh, ?_⟩
    rw [hunkNumeric_eq]
    exact hx


/-- C4: `simple_heuristics` records one `numeric_changes` entry
`(key, old, new)` per pair of matching deleted/added numeric-assignment
lines with equal identifier within a hunk (all pairs, no dedup by key),
raises `reduced_<ident>` exactly when some such pair strictly decreases
and `increased_<ident>` exactly when some pair strictly increases (no
direction flag from an equal pair), and on the concrete hunk deleting
`max_retries = 5` and adding `max_retries = 2` yields exactly
`numeric_changes = [(max_retries, 5, 2)]` with the single risk flag
`reduced_max_retries`. -/
theorem C4_numeric_assignment_heuristics :
    (∀ hunks : List Hunk,
      (simple_heuristics hunks).numeric_changes = numericPairsSpec hunks) ∧
    (∀ (hunks : List Hunk) (k : List Char),
      (("reduced_".data) ++ k) ∈ (simple_heuristics hunks).risk_flags ↔
        ∃ nc ∈ (simple_heuristics hunks).numeric_changes,
          nc.key = k ∧ nc.new < nc.old) ∧
    (∀ (hunks : List Hunk) (k : List Char),
      (("increased_".data) ++ k) ∈ (simple_heuristics hunks).risk_flags ↔
        ∃ nc ∈ (simple_heuristics hunks).numeric_changes,
          nc.key = k ∧ nc.old < nc.new) ∧
    simple_heuristics
        [⟨1, 1, 1, 1,
          [⟨OpKind.del, ("max_retries = 5").data⟩,
           ⟨OpKind.add, ("max_retries = 2").data⟩], [], []⟩] =
      ⟨[("reduced_max_retries").data],
       [⟨("max_retries").data, 5, 2⟩], [], []⟩ := by
  refine ⟨numeric_changes_eq_pairs, ?_, ?_, by with_unfolding_all rfl⟩
  · intro hunks k
    rw [mem_risk_flags]
    constructor
    · rintro ⟨h, hh, hop | hflag⟩
      · exfalso
        obtain ⟨o, _, hmem⟩ := List.mem_flatMap.mp hop
        rcases opFlags_shape o _ hmem with h4 | h4 | h4 | h4
        · exact ne_of_getElem2 2 'd' 'm' (by decide) rfl rfl h4
        · exact ne_of_getElem2 2 'd' 'm' (by decide) rfl rfl h4
        · exact ne_of_getElem2 2 'd' 'm' (by decide) rfl rfl h4
        · exact ne_of_getElem2 0 'r' 't' (by decide) rfl rfl h4
      · rw [mem_numericFlagsHunk] at hflag
        obtain ⟨d, hd, kv, hkv, a, ha, kv2, h1, h2, h3⟩ := hflag
        rw [mem_dirFlags] at h3
        rcases h3 with ⟨hlt, heq⟩ | ⟨hlt, heq⟩
        · have hk : k = kv.1 := List.append_cancel_left heq
          refine ⟨⟨kv.1, kv.2, kv2.2⟩, ?_, hk.symm, hlt⟩
          rw [numeric_changes_eq_pairs]
          simp only [numericPairsSpec, List.mem_flatMap]
          exact ⟨h, hh,
            (mem_numericPairsHunk _ _ _).mpr ⟨d, hd, kv, hkv, a, ha, kv2, h1, h2, rfl⟩⟩
        · exact absurd heq (ne_of_getElem2 0 'r' 'i' (by decide) rfl rfl)
    · rintro ⟨nc, hnc, hkey, hlt⟩
      rw [numeric_changes_eq_pairs] at hnc
      simp only [numericPairsSpec, List.mem_flatMap] at hnc
      obtain ⟨h, hh, hph⟩ := hnc
      obtain ⟨d, hd, kv, hkv, a, ha, kv2, h1, h2, hnceq⟩ :=
        (mem_numericPairsHunk _ _ _).mp hph
      refine ⟨h, hh, Or.inr ?_⟩
      rw [mem_numericFlagsHunk]
      refine ⟨d, hd, kv, hkv, a, ha, kv2, h1, h2, ?_⟩
      rw [mem_dirFlags]
      subst hnceq
      exact Or.inl ⟨hlt, by rw [← hkey]⟩
  · intro hunks k
    rw [mem_risk_flags]
    constructor
    · rintro ⟨h, hh, hop | hflag⟩
      · exfalso
        obtain ⟨o, _, hmem⟩ := List.mem_flatMap.mp hop
        rcases opFlags_shape o _ hmem with h4 | h4 | h4 | h4
        · exact ne_of_getElem2 0 'i' 'r' (by decide) rfl rfl h4
        · exact ne_of_getElem2 0 'i' 'r' (by decide) rfl rfl h4
        · exact ne_of_getElem2 0 'i' 'r' (by decide) rfl rfl h4
        · exact ne_of_getElem2 0 'i' 't' (by decide) rfl rfl h4
      · rw [mem_numericFlagsHunk] at hflag
        obtain ⟨d, hd, kv, hkv, a, ha, kv2, h1, h2, h3⟩ := hflag
        rw [mem_dirFlags] at h3
        rcases h3 with ⟨hlt, heq⟩ | ⟨hlt, heq⟩
        · exact absurd heq (ne_of_getElem2 0 'i' 'r' (by decide) rfl rfl)
        · have hk : k = kv.1 := List.append_cancel_left heq
          refine ⟨⟨kv.1, kv.2, kv2.2⟩, ?_, hk.symm, hlt⟩
          rw [numeric_changes_eq_pairs]
          simp only [numericPairsSpec, List.mem_flatMap]
          exact ⟨h, hh,
            (mem_numericPairsHunk _ _ _).mpr ⟨d, hd, kv, hkv, a, ha, kv2, h1, h2, rfl⟩⟩
    · rintro ⟨nc, hnc, hkey, hlt⟩
      rw [numeric_changes_eq_pairs] at hnc
      simp only [numericPairsSpec, List.mem_flatMap] at hnc
      obtain ⟨h, hh, hph⟩ := hnc
      obtain ⟨d, hd, kv, hkv, a, ha, kv2, h1, h2, hnceq⟩ :=
        (mem_numericPairsHunk _ _ _).mp hph
      refine ⟨h, hh, Or.inr ?_⟩
      rw [mem_numericFlagsHunk]
      refine ⟨d, hd, kv, hkv, a, ha, kv2, h1, h2, ?_⟩
      rw [mem_dirFlags]
      subst hnceq
      exact Or.inr ⟨hlt, by rw [← hkey]⟩


/-! ### Parser structure lemmas -/

theorem parseLinesGo_nil : ∀ fuel, parseLinesGo fuel [] = [] := by
  intro fuel
  cases fuel with
  | zero => rfl
  | succ n => rfl

/-- The fuel of `parseLinesGo` is irrelevant once it dominates the number
of lines. -/
theorem parseLinesGo_fuel : ∀ (fuel fuel' : Nat) (ls : List (List Char)),
    ls.length ≤ fuel → ls.length ≤ fuel' →
    parseLinesGo fuel ls = parseLinesGo fuel' ls := by
  intro fuel
  induction fuel with
  | zero =>
    intro fuel' ls h h'
    have : ls = [] := List.length_eq_zero.mp (Nat.le_zero.mp h)
    subst this
    rw [parseLinesGo_nil, parseLinesGo_nil]
  | succ n ih =>
    intro fuel' ls h h'
    cases ls with
    | nil => rw [parseLinesGo_nil, parseLinesGo_nil]
    | cons l rest =>
      cases fuel' with
      | zero => simp at h'
      | succ n' =>
        simp only [parseLinesGo]
        by_cases hs : pyStartswith l (("@@ ").data) = true
        · rw [if_pos hs, if_pos hs]
          cases hm : headerMatch l with
          | none =>
            exact ih n' rest (by simpa using h) (by simpa using h')
          | some q =>
            obtain ⟨os, ol, ns, nl⟩ := q
            dsimp only
            have hlen := consumeBody_rest_length rest
            rw [ih n' (consumeBody rest).2.2.2
              (by simp at h; omega) (by simp at h'; omega)]
        · rw [if_neg hs, if_neg hs]
          exact ih n' rest (by simpa using h) (by simpa using h')

theorem parse_unified_diff_eq_parseL (s : List Char) :
    parse_unified_diff s = parseL (pySplitlines s) := rfl

theorem parseL_skip (l : List Char) (rest : List (List Char))
    (h : pyStartswith l (("@@ ").data) = false ∨ headerMatch l = none) :
    parseL (l :: rest) = parseL rest := by
  simp only [parseL, List.length_cons, parseLinesGo]
  rcases h with h | h
  · rw [if_neg (by simp [h])]
  · by_cases hs : pyStartswith l (("@@ ").data) = true
    · rw [if_pos hs, h]
    · rw [if_neg hs]

theorem headerMatch_startswith (l : List Char) (q : Nat × Nat × Nat × Nat)
    (h : headerMatch l = some q) : pyStartswith l (("@@ ").data) = true := by
  simp only [headerMatch, stripPrefixCh] at h
  by_cases hp : (("@@ -").data).isPrefixOf l = true
  · have h1 : (("@@ -").data) <+: l := List.isPrefixOf_iff_prefix.mp hp
    have h2 : (("@@ ").data) <+: (("@@ -").data) := ⟨[ '-' ], rfl⟩
    simpa [pyStartswith, List.isPrefixOf_iff_prefix] using h2.trans h1
  · rw [if_neg hp] at h
    simp at h

theorem parseL_hunk (l : List Char) (rest : List (List Char))
    (os ol ns nl : Nat) (h : headerMatch l = some (os, ol, ns, nl)) :
    parseL (l :: rest) =
      { old_start := os, old_len := ol, new_start := ns, new_len := nl,
        ops := (consumeBody rest).1,
        old_snippet := joinSep [ '\n' ] (consumeBody rest).2.1,
        new_snippet := joinSep [ '\n' ] (consumeBody rest).2.2.1 } ::
        parseL (consumeBody rest).2.2.2 := by
  simp only [parseL, List.length_cons, parseLinesGo]
  rw [if_pos (headerMatch_startswith l _ h), h]
  dsimp only
  have hlen := consumeBody_rest_length rest
  rw [parseLinesGo_fuel rest.length (consumeBody rest).2.2.2.length
    (consumeBody rest).2.2.2 hlen (le_refl _)]

/-! ### Decimal digits and the hunk-header pattern -/

theorem char_ofNat_toNat (n : Nat) (h : n < 55296) : (Char.ofNat n).toNat = n := by
  unfold Char.ofNat
  rw [dif_pos (Or.inl h : Nat.isValidChar n)]
  simp only [Char.toNat, Char.ofNatAux, UInt32.toNat, UInt32.ofNatCore,
    BitVec.toNat_ofNatLt]

/-- The digits `natToCharsGo` pushes onto the accumulator are a nonempty
block of decimal digit characters whose place value, folded onto any
already-accumulated value `v`, is `v` shifted past the block plus `n`. -/
theorem natToCharsGo_spec : ∀ (fuel n : Nat) (acc : List Char), n < fuel →
    ∃ ds, natToCharsGo fuel n acc = ds ++ acc ∧ ds ≠ [] ∧
      ds.all isDigitCh = true ∧
      ∀ v, ds.foldl (fun m c => 10 * m + (c.toNat - 48)) v = v * 10 ^ ds.length + n := by
  intro fuel
  induction fuel with
  | zero => intro n acc h; omega
  | succ f ih =>
    intro n acc h
    by_cases h10 : n < 10
    · refine ⟨[Char.ofNat (48 + n)], ?_, by simp, ?_, ?_⟩
      · simp [natToCharsGo, h10]
      · have hc := char_ofNat_toNat (48 + n) (by omega)
        simp [isDigitCh, hc]
        omega
      · intro v
        have hc := char_ofNat_toNat (48 + n) (by omega)
        simp [hc, pow_one]
        omega
    · have hn : n / 10 < f := by
        have h1 : n / 10 < n := Nat.div_lt_self (by omega) (by omega)
        omega
      obtain ⟨ds, hds, hne, hdig, hval⟩ := ih (n / 10) (Char.ofNat (48 + n % 10) :: acc) hn
      refine ⟨ds ++ [Char.ofNat (48 + n % 10)], ?_, by simp, ?_, ?_⟩
      · simp only [natToCharsGo, if_neg h10]
        rw [hds]
        simp
      · have hc := char_ofNat_toNat (48 + n % 10) (by omega)
        simp only [List.all_append, hdig, Bool.true_and, List.all_cons,
          List.all_nil, Bool.and_true]
        simp [isDigitCh, hc]
        omega
      · intro v
        rw [List.foldl_append]
        have hc := char_ofNat_toNat (48 + n % 10) (by omega)
        simp only [List.foldl, hval v, hc, List.length_append, List.length_cons,
          List.length_nil]
        have hsub : 48 + n % 10 - 48 = n % 10 := by omega
        rw [hsub]
        calc 10 * (v * 10 ^ ds.length + n / 10) + n % 10
            = v * 10 ^ (ds.length + 1) + (10 * (n / 10) + n % 10) := by ring
          _ = v * 10 ^ (ds.length + 1) + n := by rw [Nat.div_add_mod]

/-- The decimal rendering of `n` is a nonempty digit string whose numeric
value is `n` again. -/
theorem natToChars_spec (n : Nat) :
    natToChars n ≠ [] ∧ (natToChars n).all isDigitCh = true ∧
      digitsToNat (natToChars n) = n := by
  obtain ⟨ds, hds, hne, hdig, hval⟩ := natToCharsGo_spec (n + 1) n [] (by omega)
  have h0 : natToChars n = ds := by simp [natToChars, hds]
  refine ⟨by rw [h0]; exact hne, by rw [h0]; exact hdig, ?_⟩
  rw [h0]
  have hv := hval 0
  simpa [digitsToNat] using hv

/-- Splitting a digit block followed by a non-digit boundary. -/
theorem takeWhile_digits_append (ds rest : List Char)
    (hd : ds.all isDigitCh = true) (hr : isDigitCh (rest.headD ' ') = false) :
    (ds ++ rest).takeWhile isDigitCh = ds ∧ (ds ++ rest).dropWhile isDigitCh = rest := by
  induction ds with
  | nil =>
    cases rest with
    | nil => simp
    | cons h t =>
      simp only [List.headD_cons] at hr
      simp [List.takeWhile_cons, List.dropWhile_cons, hr]
  | cons c cs ih =>
    simp only [List.all_cons, Bool.and_eq_true] at hd
    have h2 := ih hd.2
    simp [List.takeWhile_cons, List.dropWhile_cons, hd.1, h2.1, h2.2]

theorem stripPrefixCh_append (p t : List Char) :
    stripPrefixCh p (p ++ t) = some t := by
  have h : p.isPrefixOf (p ++ t) = true := by
    rw [List.isPrefixOf_iff_prefix]
    exact List.prefix_append p t
  simp [stripPrefixCh, h, List.drop_left]

theorem commaStrip_comma (t : List Char) : commaStrip (',' :: t) = t := rfl

theorem commaStrip_space (t : List Char) : commaStrip (' ' :: t) = ' ' :: t := rfl

/-- Every line of the shape `@@ -a[,b] +c[,d] @@…` — arbitrary digit
groups, each length group optional (and, when present, possibly empty
behind its comma, as the pattern is `,?(\\d*)`), arbitrary trailing
text — matches the header pattern, with absent or empty length groups
defaulting to 1. -/
theorem headerMatch_pattern (d1 d3 : List Char) (g2 g4 : Option (List Char))
    (t : List Char)
    (h1 : d1 ≠ []) (h1d : d1.all isDigitCh = true)
    (h3 : d3 ≠ []) (h3d : d3.all isDigitCh = true)
    (h2d : ∀ d, g2 = some d → d.all isDigitCh = true)
    (h4d : ∀ d, g4 = some d → d.all isDigitCh = true) :
    headerMatch (("@@ -".data) ++ rangePart d1 g2 ++ (" +".data) ++
        rangePart d3 g4 ++ (" @@".data) ++ t) =
      some (digitsToNat d1, optLen g2, digitsToNat d3, optLen g4) := by
  have hplus : (" +".data) = ' ' :: '+' :: [] := rfl
  have hat : (" @@".data) = ' ' :: '@' :: '@' :: [] := rfl
  have hrange : ∀ (d : List Char) (g : Option (List Char)) (X : List Char),
      d.all isDigitCh = true → (∀ e, g = some e → e.all isDigitCh = true) →
      (rangePart d g ++ (' ' :: X)).takeWhile isDigitCh = d ∧
      (commaStrip ((rangePart d g ++ (' ' :: X)).dropWhile isDigitCh)).takeWhile
          isDigitCh = (g.getD []) ∧
      (commaStrip ((rangePart d g ++ (' ' :: X)).dropWhile isDigitCh)).dropWhile
          isDigitCh = ' ' :: X := by
    intro d g X hdd hgd
    have hsp : isDigitCh ' ' = false := by decide
    have hh : isDigitCh ((' ' :: X).headD ' ') = false := by
      rw [List.headD_cons]
      exact hsp
    cases g with
    | none =>
      simp only [rangePart, List.append_nil, Option.getD]
      have h := takeWhile_digits_append d (' ' :: X) hdd hh
      rw [h.1, h.2, commaStrip_space]
      refine ⟨rfl, ?_, ?_⟩
      · simp [List.takeWhile_cons, hsp]
      · simp [List.dropWhile_cons, hsp]
    | some e =>
      have he := hgd e rfl
      have hassoc : rangePart d (some e) ++ (' ' :: X) =
          d ++ (',' :: (e ++ (' ' :: X))) := by
        simp [rangePart]
      rw [hassoc]
      have hcm : isDigitCh ((',' :: (e ++ (' ' :: X))).headD ' ') = false := by
        rw [List.headD_cons]
        decide
      have h := takeWhile_digits_append d (',' :: (e ++ (' ' :: X))) hdd hcm
      rw [h.1, h.2, commaStrip_comma]
      have h2 := takeWhile_digits_append e (' ' :: X) he hh
      exact ⟨rfl, h2.1, h2.2⟩
  have hassoc1 : ("@@ -".data) ++ rangePart d1 g2 ++ (" +".data) ++
      rangePart d3 g4 ++ (" @@".data) ++ t =
      ("@@ -".data) ++ (rangePart d1 g2 ++
        (' ' :: ('+' :: (rangePart d3 g4 ++ (' ' :: ('@' :: '@' :: t)))))) := by
    simp [hplus, hat]
  rw [hassoc1]
  simp only [headerMatch, stripPrefixCh_append]
  have hr1 := hrange d1 g2 ('+' :: (rangePart d3 g4 ++ (' ' :: ('@' :: '@' :: t))))
    h1d h2d
  rw [hr1.1, hr1.2.1, hr1.2.2]
  rw [if_neg h1]
  have hp2 : ' ' :: '+' :: (rangePart d3 g4 ++ (' ' :: ('@' :: '@' :: t))) =
      (" +".data) ++ (rangePart d3 g4 ++ (' ' :: ('@' :: '@' :: t))) := rfl
  rw [hp2, stripPrefixCh_append]
  dsimp only
  have hr2 := hrange d3 g4 ('@' :: '@' :: t) h3d h4d
  rw [hr2.1, hr2.2.1, hr2.2.2]
  rw [if_neg h3]
  have hp3 : ' ' :: '@' :: '@' :: t = (" @@".data) ++ t := rfl
  rw [hp3, stripPrefixCh_append]
  cases g2 with
  | none => cases g4 with
    | none => rfl
    | some e4 => simp [optLen, Option.getD]
  | some e2 => cases g4 with
    | none => simp [optLen, Option.getD]
    | some e4 => simp [optLen, Option.getD]

/-- A line list in which no line matches the header pattern parses to no
hunks at all. -/
theorem parseL_noheader : ∀ ls : List (List Char),
    (∀ l ∈ ls, headerMatch l = none) → parseL ls = [] := by
  intro ls
  induction ls with
  | nil => intro _; rfl
  | cons l rest ih =>
    intro h
    rw [parseL_skip l rest (Or.inr (h l (by simp)))]
    exact ih (fun x hx => h x (by simp [hx]))

/-- C5: `parse_unified_diff` is total (a Lean function, so it can raise
nothing) and permissive: a line of the hunk-header shape
`@@ -a[,b] +c[,d] @@…` (arbitrary digit groups, omitted lengths
defaulting to 1, trailing text ignored) starts a new hunk carrying the
parsed numbers; any line the header pattern rejects — malformed `@@ `
lines and every line before the first valid header included — is skipped
outright; and text without a single matching header line, the empty text
in particular, parses to the empty hunk list. -/
theorem C5_parser_tolerance :
    (∀ (d1 d3 : List Char) (g2 g4 : Option (List Char)) (t : List Char)
        (rest : List (List Char)),
        d1 ≠ [] → d1.all isDigitCh = true →
        d3 ≠ [] → d3.all isDigitCh = true →
        (∀ d, g2 = some d → d.all isDigitCh = true) →
        (∀ d, g4 = some d → d.all isDigitCh = true) →
        parseL ((("@@ -".data) ++ rangePart d1 g2 ++ (" +".data) ++
            rangePart d3 g4 ++ (" @@".data) ++ t) :: rest) =
          { old_start := digitsToNat d1, old_len := optLen g2,
            new_start := digitsToNat d3, new_len := optLen g4,
            ops := (consumeBody rest).1,
            old_snippet := joinSep [ '\n' ] (consumeBody rest).2.1,
            new_snippet := joinSep [ '\n' ] (consumeBody rest).2.2.1 } ::
            parseL (consumeBody rest).2.2.2) ∧
    (∀ (l : List Char) (rest : List (List Char)), headerMatch l = none →
        parseL (l :: rest) = parseL rest) ∧
    (∀ ls : List (List Char), (∀ l ∈ ls, headerMatch l = none) → parseL ls = []) ∧
    (∀ s : List Char, (∀ l ∈ pySplitlines s, headerMatch l = none) →
        parse_unified_diff s = []) ∧
    parse_unified_diff [] = [] := by
  refine ⟨?_, ?_, parseL_noheader, ?_, rfl⟩
  · intro d1 d3 g2 g4 t rest h1 h1d h3 h3d h2d h4d
    exact parseL_hunk _ rest _ _ _ _
      (headerMatch_pattern d1 d3 g2 g4 t h1 h1d h3 h3d h2d h4d)
  · intro l rest h
    exact parseL_skip l rest (Or.inr h)
  · intro s h
    rw [parse_unified_diff_eq_parseL]
    exact parseL_noheader _ h

/-- A concrete run of the C5 facts: a header with an omitted old length
and a trailing section heading starts a hunk (old length defaulting
to 1), and header-free text parses to no hunks. -/
theorem C5_parser_tolerance_witness :
    parseL [(("@@ -5 +3,2 @@ ctx").data), (("-old").data), (("+new").data)] =
      [{ old_start := 5, old_len := 1, new_start := 3, new_len := 2,
         ops := [⟨OpKind.del, ("old").data⟩, ⟨OpKind.add, ("new").data⟩],
         old_snippet := ("old").data, new_snippet := ("new").data }] ∧
    parse_unified_diff (("just some text\nno header").data) = [] := by
  constructor
  · have h := C5_parser_tolerance.1 (("5").data) (("3").data) none
      (some (("2").data)) ((" ctx").data) [(("-old").data), (("+new").data)]
      (by decide) (by decide) (by decide) (by decide)
      (fun d hd => nomatch hd)
      (fun d hd => by
        rw [← Option.some.inj hd]
        decide)
    have hline : (("@@ -").data) ++ rangePart (("5").data) none ++
        ((" +").data) ++ rangePart (("3").data) (some (("2").data)) ++
        ((" @@").data) ++ ((" ctx").data) = (("@@ -5 +3,2 @@ ctx").data) := by
      decide
    rw [hline] at h
    rw [h]
    decide
  · exact C5_parser_tolerance.2.2.2.1 _ (by decide)

/-! ### Inert hunk-body lines -/

/-- Inserting a line that starts no hunk (no `@@ ` prefix) and carries no
body marker changes nothing in `consumeBody` except, when consumption had
already stopped at an earlier `@@ ` line, the inserted line surviving
inside the returned remainder. -/
theorem consumeBody_insert (l : List Char)
    (h1 : pyStartswith l (("@@ ").data) = false)
    (h2 : pyStartswith l (("-").data) = false)
    (h3 : pyStartswith l (("+").data) = false)
    (h4 : pyStartswith l ((" ").data) = false) :
    ∀ pre post : List (List Char),
      (consumeBody (pre ++ l :: post)).1 = (consumeBody (pre ++ post)).1 ∧
      (consumeBody (pre ++ l :: post)).2.1 = (consumeBody (pre ++ post)).2.1 ∧
      (consumeBody (pre ++ l :: post)).2.2.1 = (consumeBody (pre ++ post)).2.2.1 ∧
      ((consumeBody (pre ++ l :: post)).2.2.2 = (consumeBody (pre ++ post)).2.2.2 ∨
        ∃ mid : List (List Char), mid.length ≤ pre.length ∧
          (consumeBody (pre ++ l :: post)).2.2.2 = mid ++ l :: post ∧
          (consumeBody (pre ++ post)).2.2.2 = mid ++ post) := by
  intro pre
  induction pre with
  | nil =>
    intro post
    simp only [List.nil_append]
    have hstep : consumeBody (l :: post) = consumeBody post := by
      simp only [consumeBody, h1, h2, h3, h4]
      simp
    rw [hstep]
    exact ⟨rfl, rfl, rfl, Or.inl rfl⟩
  | cons p pre' ih =>
    intro post
    have ih' := ih post
    simp only [List.cons_append, consumeBody]
    by_cases hp : pyStartswith p (("@@ ").data) = true
    · rw [if_pos hp, if_pos hp]
      refine ⟨rfl, rfl, rfl, Or.inr ⟨p :: pre', by simp, by simp, by simp⟩⟩
    · rw [if_neg hp, if_neg hp]
      by_cases hm : pyStartswith p (("-").data) = true
      · rw [if_pos hm, if_pos hm]
        dsimp only
        simp only [List.append_eq]
        refine ⟨by rw [ih'.1], by rw [ih'.2.1], by rw [ih'.2.2.1], ?_⟩
        rcases ih'.2.2.2 with he | ⟨mid, hl, ha, hb⟩
        · exact Or.inl he
        · exact Or.inr ⟨mid, Nat.le_succ_of_le hl, ha, hb⟩
      · rw [if_neg hm, if_neg hm]
        by_cases hq : pyStartswith p (("+").data) = true
        · rw [if_pos hq, if_pos hq]
          dsimp only
          simp only [List.append_eq]
          refine ⟨by rw [ih'.1], by rw [ih'.2.1], by rw [ih'.2.2.1], ?_⟩
          rcases ih'.2.2.2 with he | ⟨mid, hl, ha, hb⟩
          · exact Or.inl he
          · exact Or.inr ⟨mid, Nat.le_succ_of_le hl, ha, hb⟩
        · rw [if_neg hq, if_neg hq]
          by_cases hw : pyStartswith p ((" ").data) = true
          · rw [if_pos hw, if_pos hw]
            dsimp only
            simp only [List.append_eq]
            refine ⟨by rw [ih'.1], by rw [ih'.2.1], by rw [ih'.2.2.1], ?_⟩
            rcases ih'.2.2.2 with he | ⟨mid, hl, ha, hb⟩
            · exact Or.inl he
            · exact Or.inr ⟨mid, Nat.le_succ_of_le hl, ha, hb⟩
          · rw [if_neg hw, if_neg hw]
            refine ⟨ih'.1, ih'.2.1, ih'.2.2.1, ?_⟩
            rcases ih'.2.2.2 with he | ⟨mid, hl, ha, hb⟩
            · exact Or.inl he
            · exact Or.inr ⟨mid, Nat.le_succ_of_le hl, ha, hb⟩

/-- Inserting such a line anywhere in the parsed line list leaves the
parse unchanged (the bound `n` feeds the induction). -/
theorem parseL_insert (l : List Char)
    (h1 : pyStartswith l (("@@ ").data) = false)
    (h2 : pyStartswith l (("-").data) = false)
    (h3 : pyStartswith l (("+").data) = false)
    (h4 : pyStartswith l ((" ").data) = false) :
    ∀ (n : Nat) (pre post : List (List Char)), pre.length + post.length ≤ n →
      parseL (pre ++ l :: post) = parseL (pre ++ post) := by
  intro n
  induction n with
  | zero =>
    intro pre post h
    have hp : pre = [] := by
      cases pre with
      | nil => rfl
      | cons a b => simp at h
    have hq : post = [] := by
      cases post with
      | nil => rfl
      | cons a b => simp at h
    subst hp; subst hq
    simp only [List.nil_append, List.append_nil]
    rw [parseL_skip l [] (Or.inl h1)]
  | succ n ih =>
    intro pre post h
    cases pre with
    | nil =>
      simp only [List.nil_append]
      exact parseL_skip l post (Or.inl h1)
    | cons p pre' =>
      simp only [List.cons_append]
      cases hm : headerMatch p with
      | none =>
        rw [parseL_skip p _ (Or.inr hm), parseL_skip p _ (Or.inr hm)]
        exact ih pre' post (by simp at h; omega)
      | some q =>
        obtain ⟨os, ol, ns, nl⟩ := q
        rw [parseL_hunk p _ os ol ns nl hm, parseL_hunk p _ os ol ns nl hm]
        have hc := consumeBody_insert l h1 h2 h3 h4 pre' post
        rw [hc.1, hc.2.1, hc.2.2.1]
        rcases hc.2.2.2 with he | ⟨mid, hl, ha, hb⟩
        · rw [he]
        · rw [ha, hb]
          congr 1
          exact ih mid post (by simp at h; omega)

/-- C9: hunk-body lines carrying none of the four markers `-`, `+`,
space, backslash are inert: provided the line does not itself open a new
`@@ ` header (which ends the body rather than sitting inside it),
inserting it anywhere in the line list changes neither the parsed
operations nor the snippets of any hunk; the empty line — which the
newline join of `unified_diff_text` puts between newline-terminated
content lines — is such a line, so those are silently dropped; and every
operation of a parsed hunk is a del, add or ctx (the parser produces no
other kind). -/
theorem C9_inert_body_lines :
    (∀ l : List Char,
        pyStartswith l (("-").data) = false →
        pyStartswith l (("+").data) = false →
        pyStartswith l ((" ").data) = false →
        pyStartswith l (("\\").data) = false →
        pyStartswith l (("@@ ").data) = false →
        ∀ pre post : List (List Char),
          parseL (pre ++ l :: post) = parseL (pre ++ post)) ∧
    (∀ pre post : List (List Char),
        parseL (pre ++ ([] : List Char) :: post) = parseL (pre ++ post)) ∧
    (∀ s : List Char, ∀ h ∈ parse_unified_diff s, ∀ op ∈ h.ops,
        op.op = OpKind.del ∨ op.op = OpKind.add ∨ op.op = OpKind.ctx) := by
  refine ⟨?_, ?_, ?_⟩
  · intro l h2 h3 h4 hb h1 pre post
    exact parseL_insert l h1 h2 h3 h4 (pre.length + post.length) pre post
      (le_refl _)
  · intro pre post
    exact parseL_insert [] (by decide) (by decide) (by decide) (by decide)
      (pre.length + post.length) pre post (le_refl _)
  · intro s h hh op hop
    cases hk : op.op with
    | del => exact Or.inl rfl
    | add => exact Or.inr (Or.inl rfl)
    | ctx => exact Or.inr (Or.inr rfl)

/-- A concrete run of the C9 facts: inserting a marker-free line or an
empty line into a hunk body leaves the parse unchanged. -/
theorem C9_inert_body_lines_witness :
    parseL ([(("@@ -1 +1 @@").data), (("-a").data)] ++ (("junk").data) ::
        [(("+b").data)]) =
      parseL ([(("@@ -1 +1 @@").data), (("-a").data)] ++ [(("+b").data)]) ∧
    parseL ([(("@@ -1 +1 @@").data), (("-a").data)] ++ ([] : List Char) ::
        [(("+b").data)]) =
      parseL ([(("@@ -1 +1 @@").data), (("-a").data)] ++ [(("+b").data)]) :=
  ⟨C9_inert_body_lines.1 (("junk").data) (by decide) (by decide) (by decide)
      (by decide) (by decide) _ _,
   C9_inert_body_lines.2.1 _ _⟩


/-! ### The serialised records are single printable lines

Every character of `recordToJson` has code point at least 32: the
structural characters, digit renderings and escape sequences are plain
ASCII at or above the space, and `escChar` never lets a control
character through verbatim.  In particular no raw newline or carriage
return is ever embedded. -/

theorem printable_natToChars (n : Nat) : ∀ c ∈ natToChars n, 32 ≤ c.toNat := by
  intro c hc
  obtain ⟨ds, hds, hne, hdig, hval⟩ := natToCharsGo_spec (n + 1) n [] (by omega)
  have h0 : natToChars n = ds := by simp [natToChars, hds]
  rw [h0] at hc
  have := (List.all_eq_true.mp hdig) c hc
  simp only [isDigitCh, Bool.and_eq_true, decide_eq_true_eq] at this
  omega

theorem printable_hexDigit (n : Nat) (h : n < 16) : 32 ≤ (hexDigit n).toNat := by
  unfold hexDigit
  split
  · rw [char_ofNat_toNat (48 + n) (by omega)]
    omega
  · rw [char_ofNat_toNat (87 + n) (by omega)]
    omega

theorem printable_hex4 (n : Nat) : ∀ c ∈ hex4 n, 32 ≤ c.toNat := by
  intro c hc
  simp only [hex4, List.mem_cons, List.mem_singleton, List.not_mem_nil] at hc
  rcases hc with h | h | h | h | h
  all_goals first
  | (subst h; exact printable_hexDigit _ (Nat.mod_lt _ (by omega)))
  | exact absurd h (by simp)

theorem printable_escChar (d : Char) : ∀ c ∈ escChar d, 32 ≤ c.toNat := by
  intro c hc
  unfold escChar at hc
  split at hc
  · rcases List.mem_cons.mp hc with h | h
    · subst h; decide
    · simp at h; subst h; decide
  · split at hc
    · rcases List.mem_cons.mp hc with h | h
      · subst h; decide
      · simp at h; subst h; decide
    · split at hc
      · rcases List.mem_cons.mp hc with h | h
        · subst h; decide
        · simp at h; subst h; decide
      · split at hc
        · rcases List.mem_cons.mp hc with h | h
          · subst h; decide
          · simp at h; subst h; decide
        · split at hc
          · rcases List.mem_cons.mp hc with h | h
            · subst h; decide
            · simp at h; subst h; decide
          · split at hc
            · rcases List.mem_cons.mp hc with h | h
              · subst h; decide
              · simp at h; subst h; decide
            · split at hc
              · rcases List.mem_cons.mp hc with h | h
                · subst h; decide
                · simp at h; subst h; decide
              · rename_i h1 h2 h3 h4 h5 h6 h7
                split at hc
                · simp only [List.cons_append, List.nil_append,
                    List.mem_cons] at hc
                  rcases hc with h | h | h
                  · subst h; decide
                  · subst h; decide
                  · exact printable_hex4 _ c h
                · rename_i h8
                  simp only [List.mem_singleton] at hc
                  subst hc
                  omega

theorem printable_jsonStr (s : List Char) : ∀ c ∈ jsonStr s, 32 ≤ c.toNat := by
  intro c hc
  rcases List.mem_cons.mp hc with h | h2
  · subst h; decide
  · rcases List.mem_append.mp h2 with h3 | h3
    · obtain ⟨d, _, h4⟩ := List.mem_flatMap.mp h3
      exact printable_escChar d c h4
    · have h5 := List.mem_singleton.mp h3
      subst h5
      decide

theorem printable_joinSep : ∀ (xs : List (List Char)),
    (∀ x ∈ xs, ∀ c ∈ x, 32 ≤ c.toNat) →
    ∀ c ∈ joinSep ((", ").data) xs, 32 ≤ c.toNat := by
  intro xs
  induction xs with
  | nil =>
    intro _ c hc
    simp [joinSep] at hc
  | cons x xs ih =>
    intro hxs c hc
    cases xs with
    | nil => exact hxs x (by simp) c (by simpa [joinSep] using hc)
    | cons y ys =>
      simp only [joinSep, List.append_assoc, List.mem_append] at hc
      rcases hc with h | h | h
      · exact hxs x (by simp) c h
      · rcases List.mem_cons.mp h with h | h
        · subst h; decide
        · have h5 := List.mem_singleton.mp h
          subst h5
          decide
      · exact ih (fun z hz => hxs z (by simp [hz])) c h

theorem printable_jsonKV (k v : List Char) (hv : ∀ c ∈ v, 32 ≤ c.toNat) :
    ∀ c ∈ jsonKV k v, 32 ≤ c.toNat := by
  intro c hc
  simp only [jsonKV, List.mem_append] at hc
  rcases hc with (h | h) | h
  · exact printable_jsonStr k c h
  · rcases List.mem_cons.mp h with h | h
    · subst h; decide
    · have h5 := List.mem_singleton.mp h
      subst h5
      decide
  · exact hv c h

theorem printable_jsonObj (kvs : List (List Char))
    (h : ∀ x ∈ kvs, ∀ c ∈ x, 32 ≤ c.toNat) :
    ∀ c ∈ jsonObj kvs, 32 ≤ c.toNat := by
  intro c hc
  rcases List.mem_cons.mp hc with h1 | h2
  · subst h1; decide
  · rcases List.mem_append.mp h2 with h3 | h3
    · exact printable_joinSep kvs h c h3
    · have h5 := List.mem_singleton.mp h3
      subst h5
      decide

theorem printable_jsonArr (vs : List (List Char))
    (h : ∀ x ∈ vs, ∀ c ∈ x, 32 ≤ c.toNat) :
    ∀ c ∈ jsonArr vs, 32 ≤ c.toNat := by
  intro c hc
  rcases List.mem_cons.mp hc with h1 | h2
  · subst h1; decide
  · rcases List.mem_append.mp h2 with h3 | h3
    · exact printable_joinSep vs h c h3
    · have h5 := List.mem_singleton.mp h3
      subst h5
      decide

theorem printable_intToChars (z : ℤ) : ∀ c ∈ intToChars z, 32 ≤ c.toNat := by
  intro c hc
  unfold intToChars at hc
  split at hc
  · rcases List.mem_cons.mp hc with h | h
    · subst h; decide
    · exact printable_natToChars _ c h
  · exact printable_natToChars _ c hc

theorem printable_qToChars (q : ℚ) : ∀ c ∈ qToChars q, 32 ≤ c.toNat := by
  intro c hc
  unfold qToChars at hc
  split at hc
  · exact printable_intToChars _ c hc
  · simp only [List.mem_append, List.mem_singleton] at hc
    rcases hc with (h | h) | h
    · exact printable_intToChars _ c h
    · subst h; decide
    · exact printable_natToChars _ c h

theorem printable_opToJson (o : Op) : ∀ c ∈ opToJson o, 32 ≤ c.toNat := by
  refine printable_jsonObj _ ?_
  intro x hx
  simp only [List.mem_cons, List.not_mem_nil, or_false] at hx
  rcases hx with h | h
  · subst h; exact printable_jsonKV _ _ (printable_jsonStr _)
  · subst h; exact printable_jsonKV _ _ (printable_jsonStr _)

theorem printable_hunkToJson (h : Hunk) : ∀ c ∈ hunkToJson h, 32 ≤ c.toNat := by
  refine printable_jsonObj _ ?_
  intro x hx
  simp only [List.mem_cons, List.not_mem_nil, or_false] at hx
  rcases hx with h1 | h1 | h1 | h1 | h1 | h1 | h1
  · subst h1; exact printable_jsonKV _ _ (printable_natToChars _)
  · subst h1; exact printable_jsonKV _ _ (printable_natToChars _)
  · subst h1; exact printable_jsonKV _ _ (printable_natToChars _)
  · subst h1; exact printable_jsonKV _ _ (printable_natToChars _)
  · subst h1
    refine printable_jsonKV _ _ (printable_jsonArr _ ?_)
    intro y hy
    obtain ⟨o, _, rfl⟩ := List.mem_map.mp hy
    exact printable_opToJson o
  · subst h1; exact printable_jsonKV _ _ (printable_jsonStr _)
  · subst h1; exact printable_jsonKV _ _ (printable_jsonStr _)

theorem printable_ncToJson (nc : NumericChange) : ∀ c ∈ ncToJson nc, 32 ≤ c.toNat := by
  refine printable_jsonObj _ ?_
  intro x hx
  simp only [List.mem_cons, List.not_mem_nil, or_false] at hx
  rcases hx with h | h | h
  · subst h; exact printable_jsonKV _ _ (printable_jsonStr _)
  · subst h; exact printable_jsonKV _ _ (printable_qToChars _)
  · subst h; exact printable_jsonKV _ _ (printable_qToChars _)

theorem printable_heurToJson (hf : HeuristicFindings) :
    ∀ c ∈ heurToJson hf, 32 ≤ c.toNat := by
  refine printable_jsonObj _ ?_
  intro x hx
  simp only [List.mem_cons, List.not_mem_nil, or_false] at hx
  rcases hx with h | h | h | h
  · subst h
    refine printable_jsonKV _ _ (printable_jsonArr _ ?_)
    intro y hy
    obtain ⟨s, _, rfl⟩ := List.mem_map.mp hy
    exact printable_jsonStr s
  · subst h
    refine printable_jsonKV _ _ (printable_jsonArr _ ?_)
    intro y hy
    obtain ⟨nc, _, rfl⟩ := List.mem_map.mp hy
    exact printable_ncToJson nc
  · subst h
    refine printable_jsonKV _ _ (printable_jsonArr _ ?_)
    intro y hy
    obtain ⟨s, _, rfl⟩ := List.mem_map.mp hy
    exact printable_jsonStr s
  · subst h
    refine printable_jsonKV _ _ (printable_jsonArr _ ?_)
    intro y hy
    obtain ⟨s, _, rfl⟩ := List.mem_map.mp hy
    exact printable_jsonStr s

theorem printable_recordToJson (r : ChangeRecord) :
    ∀ c ∈ recordToJson r, 32 ≤ c.toNat := by
  refine printable_jsonObj _ ?_
  intro x hx
  simp only [List.mem_cons, List.not_mem_nil, or_false] at hx
  rcases hx with h | h | h | h | h | h
  · subst h; exact printable_jsonKV _ _ (printable_jsonStr _)
  · subst h
    refine printable_jsonKV _ _ (printable_jsonObj _ ?_)
    intro y hy
    simp only [List.mem_cons, List.not_mem_nil, or_false] at hy
    rcases hy with h1 | h1
    · subst h1; exact printable_jsonKV _ _ (printable_jsonStr _)
    · subst h1; exact printable_jsonKV _ _ (printable_jsonStr _)
  · subst h
    refine printable_jsonKV _ _ (printable_jsonObj _ ?_)
    intro y hy
    simp only [List.mem_cons, List.not_mem_nil, or_false] at hy
    rcases hy with h1 | h1 | h1 | h1 | h1 | h1
    · subst h1; exact printable_jsonKV _ _ (printable_natToChars _)
    · subst h1; exact printable_jsonKV _ _ (printable_natToChars _)
    · subst h1; exact printable_jsonKV _ _ (printable_qToChars _)
    · subst h1; exact printable_jsonKV _ _ (printable_qToChars _)
    · subst h1; exact printable_jsonKV _ _ (printable_qToChars _)
    · subst h1; exact printable_jsonKV _ _ (printable_qToChars _)
  · subst h; exact printable_jsonKV _ _ (printable_jsonStr _)
  · subst h
    refine printable_jsonKV _ _ (printable_jsonArr _ ?_)
    intro y hy
    obtain ⟨hk, _, rfl⟩ := List.mem_map.mp hy
    exact printable_hunkToJson hk
  · subst h; exact printable_jsonKV _ _ (printable_heurToJson _)

theorem newline_count (records : List ChangeRecord) :
    (records.flatMap (fun r => recordToJson r ++ [ '\n' ])).count '\n' =
      records.length := by
  induction records with
  | nil => rfl
  | cons r rs ih =>
    simp only [List.flatMap_cons, List.count_append, ih]
    have h0 : (recordToJson r).count '\n' = 0 := by
      rw [List.count_eq_zero]
      intro hmem
      have := printable_recordToJson r '\n' hmem
      exact absurd this (by decide)
    rw [h0]
    simp [List.count_singleton]
    omega

theorem escChar_verbatim (c : Char) (h32 : 32 ≤ c.toNat)
    (hq : c ≠ '"') (hb : c ≠ '\\') : escChar c = [c] := by
  have hn : c ≠ '\n' := fun h => absurd h32 (by subst h; decide)
  have ht : c ≠ '\t' := fun h => absurd h32 (by subst h; decide)
  have hr : c ≠ '\r' := fun h => absurd h32 (by subst h; decide)
  have h8 : ¬(c.toNat = 8) := by omega
  have h12 : ¬(c.toNat = 12) := by omega
  have hlt : ¬(c.toNat < 32) := by omega
  simp only [escChar, if_neg hq, if_neg hb, if_neg hn, if_neg ht, if_neg hr,
    if_neg h8, if_neg h12, if_neg hlt]

/-- Each serialised record is a brace-delimited object: it starts with
`\x7b` and ends with `\x7d`. -/
theorem recordToJson_delims (r : ChangeRecord) :
    (recordToJson r).head? = some (Char.ofNat 123) ∧
    (recordToJson r).getLast? = some (Char.ofNat 125) := by
  constructor
  · rfl
  · show (Char.ofNat 123 :: (joinSep ((", ").data) _ ++ [Char.ofNat 125])).getLast? = _
    rw [← List.cons_append, List.getLast?_concat]

/-- C6: `save_jsonl` on an openable target appends, after the existing
content, one `\n`-terminated line per record — exactly N newline
characters for N records, none of them embedded in a serialised record,
which is a single brace-delimited object free of raw newlines and
carriage returns, with every character at or above the space (non-ASCII
characters among them) kept verbatim by `ensure_ascii=False` escaping;
and on an unopenable target the error is returned to the caller, never
swallowed. -/
theorem C6_save_jsonl :
    (∀ (records : List ChangeRecord) (content : List Char),
        save_jsonl records (some content) =
          Except.ok (content ++
            records.flatMap (fun r => recordToJson r ++ [ '\n' ]))) ∧
    (∀ records : List ChangeRecord,
        (records.flatMap (fun r => recordToJson r ++ [ '\n' ])).count '\n' =
          records.length) ∧
    (∀ r : ChangeRecord, '\n' ∉ recordToJson r ∧ '\r' ∉ recordToJson r) ∧
    (∀ r : ChangeRecord, (recordToJson r).head? = some (Char.ofNat 123) ∧
        (recordToJson r).getLast? = some (Char.ofNat 125)) ∧
    (∀ c : Char, 128 ≤ c.toNat → escChar c = [c]) ∧
    (∀ records : List ChangeRecord, save_jsonl records none = Except.error ()) := by
  refine ⟨fun records content => rfl, newline_count, ?_, recordToJson_delims, ?_, fun records => rfl⟩
  · intro r
    constructor
    · intro hmem
      exact absurd (printable_recordToJson r _ hmem) (by decide)
    · intro hmem
      exact absurd (printable_recordToJson r _ hmem) (by decide)
  · intro c hc
    refine escChar_verbatim c (by omega) ?_ ?_
    · intro h
      subst h
      exact absurd hc (by decide)
    · intro h
      subst h
      exact absurd hc (by decide)

/-- A concrete run of the C6 facts: the empty batch appends nothing and
succeeds, a non-ASCII character is kept verbatim, and a missing target
reports the error. -/
theorem C6_save_jsonl_witness :
    save_jsonl [] (some []) =
      Except.ok ([] ++ ([] : List ChangeRecord).flatMap
        (fun r => recordToJson r ++ [ '\n' ])) ∧
    escChar (Char.ofNat 233) = [Char.ofNat 233] ∧
    save_jsonl [] none = Except.error () :=
  ⟨C6_save_jsonl.1 [] [], C6_save_jsonl.2.2.2.2.1 (Char.ofNat 233) (by decide),
   C6_save_jsonl.2.2.2.2.2 []⟩

/-! ### The self comparison: identical inputs -/

section SelfCompare

variable {α : Type} [DecidableEq α]

/-- Candidate test for the self-comparison `b = a`: position pair
`(x, j)` participates in a chain iff both indices are in range, the
elements agree, and the element is not popular. -/
def matchOk (a : List α) (x j : Nat) : Bool :=
  match a[x]?, a[j]? with
  | some u, some v => decide (u = v) && !isPopular a u
  | _, _ => false

/-- The `j2len` chain value at `(x, j)` for `b = a`: the length of the
maximal common suffix of non-popular equal pairs ending at `(x, j)`. -/
def chainLen (a : List α) : Nat → Nat → Nat
  | 0, j => if matchOk a 0 j then 1 else 0
  | x + 1, j =>
    if matchOk a (x + 1) j then (if j = 0 then 1 else chainLen a x (j - 1) + 1)
    else 0

/-- The row function `j2len` holds before processing row `i`. -/
def prevRow (a : List α) (i j : Nat) : Nat :=
  if i = 0 then 0 else chainLen a (i - 1) j

/-- Largest diagonal chain value over rows `< i`. -/
def maxRun (a : List α) : Nat → Nat
  | 0 => 0
  | i + 1 => max (maxRun a i) (chainLen a i i)

theorem matchOk_diag {a : List α} {x j : Nat} (h : matchOk a x j = true) :
    matchOk a x x = true ∧ matchOk a j j = true := by
  unfold matchOk at h ⊢
  cases hx : a[x]? with
  | none => rw [hx] at h; simp at h
  | some u =>
    cases hj : a[j]? with
    | none => rw [hx, hj] at h; simp at h
    | some v =>
      rw [hx, hj] at h
      simp only [Bool.and_eq_true, decide_eq_true_eq, Bool.not_eq_true'] at h
      obtain ⟨rfl, hp⟩ := h
      constructor <;> simp [hx, hj, hp]

theorem chainLen_pos {a : List α} {j : Nat} (h : matchOk a j j = true) :
    1 ≤ chainLen a j j := by
  cases j with
  | zero => simp [chainLen, h]
  | succ x => simp [chainLen, h]

theorem chainLen_zero {a : List α} {x j : Nat} (h : matchOk a x j = false) :
    chainLen a x j = 0 := by
  cases x with
  | zero => simp [chainLen, h]
  | succ x => simp [chainLen, h]

theorem chainLen_le (a : List α) : ∀ x j, chainLen a x j ≤ chainLen a x x ∧
    chainLen a x j ≤ chainLen a j j := by
  intro x
  induction x with
  | zero =>
    intro j
    by_cases h : matchOk a 0 j = true
    · have hd := matchOk_diag h
      refine ⟨?_, ?_⟩
      · simp [chainLen, h, hd.1]
      · have h1 : chainLen a 0 j = 1 := by simp [chainLen, h]
        rw [h1]
        exact chainLen_pos hd.2
    · rw [chainLen_zero (Bool.eq_false_iff.mpr h)]
      exact ⟨Nat.zero_le _, Nat.zero_le _⟩
  | succ x ih =>
    intro j
    by_cases h : matchOk a (x + 1) j = true
    · have hd := matchOk_diag h
      cases j with
      | zero =>
        have h1 : chainLen a (x + 1) 0 = 1 := by simp [chainLen, h]
        rw [h1]
        exact ⟨chainLen_pos hd.1, chainLen_pos hd.2⟩
      | succ j2 =>
        have hx : chainLen a (x + 1) (j2 + 1) = chainLen a x j2 + 1 := by
          simp [chainLen, h]
        have hxx : chainLen a (x + 1) (x + 1) = chainLen a x x + 1 := by
          simp [chainLen, hd.1]
        have hjj : chainLen a (j2 + 1) (j2 + 1) = chainLen a j2 j2 + 1 := by
          simp [chainLen, hd.2]
        have hih := ih j2
        exact ⟨by rw [hx, hxx]; omega, by rw [hx, hjj]; omega⟩
    · rw [chainLen_zero (Bool.eq_false_iff.mpr h)]
      exact ⟨Nat.zero_le _, Nat.zero_le _⟩

theorem maxRun_ge (a : List α) : ∀ i x, x < i → chainLen a x x ≤ maxRun a i := by
  intro i
  induction i with
  | zero => intro x h; omega
  | succ i ih =>
    intro x h
    by_cases hx : x = i
    · subst hx
      exact le_max_right _ _
    · exact le_trans (ih x (by omega)) (le_max_left _ _)

theorem matchOk_false_of_popular {a : List α} {x : Nat} {v : α}
    (hx : a[x]? = some v) (hp : isPopular a v = true) :
    ∀ j, matchOk a x j = false := by
  intro j
  unfold matchOk
  rw [hx]
  cases hj : a[j]? with
  | none => rfl
  | some w =>
    by_cases hvw : v = w
    · subst hvw
      simp [hp]
    · simp [hvw]

/-- The inner-loop invariant for the self comparison: processing the
remaining ascending candidates `todo` of row `i` (row prefix already
recorded in `done`) keeps the best block on the diagonal, keeps its size
at least every finished diagonal run, and builds exactly the chain row. -/
theorem innerRow (a : List α) (n i : Nat)
    (old : Nat → Nat) (hold : ∀ j, old j = prevRow a i j) :
    ∀ (todo : List Nat), List.Sorted (· < ·) todo →
    ∀ (done : List Nat) (new : Nat → Nat) (best : Nat × Nat × Nat),
      (∀ j ∈ todo, matchOk a i j = true ∧ j < n) →
      (∀ j ∈ todo, ∀ j2 ∈ done, j2 < j) →
      (∀ j, new j = if j ∈ done then chainLen a i j else 0) →
      best.1 = best.2.1 →
      maxRun a i ≤ best.2.2 →
      (i ∈ done → chainLen a i i ≤ best.2.2) →
      (∀ j, matchOk a i j = true → j ∈ done ∨ j ∈ todo) →
      (∀ j, (innerLoop 0 n i todo old new best).1 j = chainLen a i j) ∧
      (innerLoop 0 n i todo old new best).2.1 =
        (innerLoop 0 n i todo old new best).2.2.1 ∧
      maxRun a (i + 1) ≤ (innerLoop 0 n i todo old new best).2.2.2 := by
  intro todo
  induction todo with
  | nil =>
    intro _ done new best _ _ hnew hdiag hbs hdone hcomp
    simp only [innerLoop]
    refine ⟨?_, hdiag, ?_⟩
    · intro j
      rw [hnew j]
      by_cases hj : j ∈ done
      · rw [if_pos hj]
      · rw [if_neg hj]
        by_cases hm : matchOk a i j = true
        · rcases hcomp j hm with h | h
          · exact absurd h hj
          · exact absurd h (List.not_mem_nil j)
        · exact (chainLen_zero (Bool.eq_false_iff.mpr hm)).symm
    · have hii : chainLen a i i ≤ best.2.2 := by
        by_cases hm : matchOk a i i = true
        · rcases hcomp i hm with h | h
          · exact hdone h
          · exact absurd h (List.not_mem_nil i)
        · rw [chainLen_zero (Bool.eq_false_iff.mpr hm)]
          exact Nat.zero_le _
      simp only [maxRun]
      omega
  | cons j rest ih =>
    intro hsorted done new best htodo hsort hnew hdiag hbs hdone hcomp
    have hmo : matchOk a i j = true := (htodo j (by simp)).1
    have hjn : j < n := (htodo j (by simp)).2
    have hsrt := List.sorted_cons.mp hsorted
    simp only [innerLoop]
    rw [if_neg (by omega : ¬ j < 0), if_neg (by omega : ¬ n ≤ j)]
    have hk : (if j = 0 then 0 else old (j - 1)) + 1 = chainLen a i j := by
      cases i with
      | zero =>
        have h1 : chainLen a 0 j = 1 := by simp [chainLen, hmo]
        rw [h1]
        by_cases hj0 : j = 0
        · rw [if_pos hj0]
        · rw [if_neg hj0, hold, prevRow, if_pos rfl]
      | succ i2 =>
        by_cases hj0 : j = 0
        · subst hj0
          simp [chainLen, hmo]
        · rw [if_neg hj0, hold (j - 1)]
          simp only [prevRow, Nat.succ_ne_zero, if_false, Nat.add_sub_cancel]
          have h1 : chainLen a (i2 + 1) j = chainLen a i2 (j - 1) + 1 := by
            simp [chainLen, hmo, hj0]
          omega
    try dsimp only
    rw [hk]
    have hnew2 : ∀ j2, (fun j2 => if j2 = j then chainLen a i j else new j2) j2 =
        if j2 ∈ j :: done then chainLen a i j2 else 0 := by
      intro j2
      by_cases he : j2 = j
      · subst he
        simp
      · simp only [if_neg he, hnew j2, List.mem_cons]
        by_cases hd : j2 ∈ done
        · rw [if_pos hd, if_pos (Or.inr hd)]
        · rw [if_neg hd, if_neg (by tauto)]
    have hsort2 : ∀ x ∈ rest, ∀ y ∈ j :: done, y < x := by
      intro x hx y hy
      rcases List.mem_cons.mp hy with h | h
      · subst h
        exact hsrt.1 x hx
      · exact hsort x (List.mem_cons_of_mem j hx) y h
    have hcomp2 : ∀ j2, matchOk a i j2 = true → j2 ∈ j :: done ∨ j2 ∈ rest := by
      intro j2 hm
      rcases hcomp j2 hm with h | h
      · exact Or.inl (List.mem_cons_of_mem j h)
      · rcases List.mem_cons.mp h with h1 | h1
        · exact Or.inl (by simp [h1])
        · exact Or.inr h1
    have htodo2 : ∀ x ∈ rest, matchOk a i x = true ∧ x < n :=
      fun x hx => htodo x (List.mem_cons_of_mem j hx)
    by_cases hup : best.2.2 < chainLen a i j
    · rw [if_pos hup]
      rcases Nat.lt_trichotomy j i with hji | hji | hji
      · exfalso
        have h1 : chainLen a i j ≤ chainLen a j j := (chainLen_le a i j).2
        have h2 := maxRun_ge a i j hji
        omega
      · subst hji
        refine ih hsrt.2 (j :: done) _ _ htodo2 hsort2 hnew2 rfl
          (by dsimp only; omega) ?_ hcomp2
        intro _
        dsimp only
        exact le_refl _
      · exfalso
        have hmii : matchOk a i i = true := (matchOk_diag hmo).1
        have hidone : i ∈ done := by
          rcases hcomp i hmii with h | h
          · exact h
          · rcases List.mem_cons.mp h with h1 | h1
            · omega
            · have := hsrt.1 i h1
              omega
        have h1 : chainLen a i j ≤ chainLen a i i := (chainLen_le a i j).1
        have h2 := hdone hidone
        omega
    · rw [if_neg hup]
      refine ih hsrt.2 (j :: done) _ _ htodo2 hsort2 hnew2 hdiag hbs ?_ hcomp2
      intro hi
      rcases List.mem_cons.mp hi with h | h
      · subst h
        omega
      · exact hdone h

/-- The main loop of `find_longest_match` on the self comparison keeps
the best block on the diagonal. -/
theorem mainDiag (a : List α) (n : Nat) (hn : n = a.length) :
    ∀ (cnt i : Nat), i + cnt = n →
    ∀ (m : Nat → Nat) (best : Nat × Nat × Nat),
      (∀ j, m j = prevRow a i j) →
      best.1 = best.2.1 →
      maxRun a i ≤ best.2.2 →
      (mainLoop a a 0 n (List.range' i cnt) m best).1 =
        (mainLoop a a 0 n (List.range' i cnt) m best).2.1 := by
  intro cnt
  induction cnt with
  | zero =>
    intro i _ m best _ hdiag _
    simpa [mainLoop] using hdiag
  | succ cnt ih =>
    intro i hcnt m best hm hdiag hbs
    rw [List.range'_succ]
    simp only [mainLoop]
    have hia : i < a.length := by omega
    have hv : a[i]? = some a[i] := List.getElem?_eq_getElem hia
    have hc : (match a[i]? with | some x => b2j a x | none => []) =
        b2j a (a[i]) := by rw [hv]
    rw [hc]
    by_cases hpop : isPopular a (a[i]) = true
    · have hb2j : b2j a (a[i]) = [] := by simp [b2j, hpop]
      rw [hb2j]
      simp only [innerLoop]
      refine ih (i + 1) (by omega) _ _ ?_ hdiag ?_
      · intro j
        have h0 : matchOk a i j = false := matchOk_false_of_popular hv hpop j
        rw [prevRow]
        rw [if_neg (by omega : ¬ i + 1 = 0), Nat.add_sub_cancel,
          chainLen_zero h0]
      · have h0 : chainLen a i i = 0 :=
          chainLen_zero (matchOk_false_of_popular hv hpop i)
        simp only [maxRun, h0]
        omega
    · have hb2j : b2j a (a[i]) =
          (List.range a.length).filter (fun j => decide (a[j]? = some (a[i]))) := by
        simp [b2j, hpop]
      have hsorted : List.Sorted (· < ·) (b2j a (a[i])) := by
        rw [hb2j]
        exact List.Pairwise.filter _ (List.pairwise_lt_range a.length)
      have hmem : ∀ j, j ∈ b2j a (a[i]) ↔ (j < a.length ∧ a[j]? = some (a[i])) := by
        intro j
        rw [hb2j]
        simp [List.mem_filter, List.mem_range]
      have htodo : ∀ j ∈ b2j a (a[i]), matchOk a i j = true ∧ j < n := by
        intro j hj
        have h1 := (hmem j).mp hj
        refine ⟨?_, by omega⟩
        unfold matchOk
        rw [hv, h1.2]
        simp [hpop]
      have hcomp : ∀ j, matchOk a i j = true → j ∈ ([] : List Nat) ∨
          j ∈ b2j a (a[i]) := by
        intro j hm2
        refine Or.inr ((hmem j).mpr ?_)
        unfold matchOk at hm2
        rw [hv] at hm2
        cases hj : a[j]? with
        | none => rw [hj] at hm2; simp at hm2
        | some w =>
          rw [hj] at hm2
          simp only [Bool.and_eq_true, decide_eq_true_eq,
            Bool.not_eq_true'] at hm2
          constructor
          · exact (List.getElem?_eq_some_iff.mp hj).1
          · rw [hm2.1]
      have hrow := innerRow a n i m hm (b2j a (a[i])) hsorted [] (fun _ => 0)
        best htodo (by simp) (by simp) hdiag hbs (by simp) hcomp
      refine ih (i + 1) (by omega) _ _ ?_ hrow.2.1 ?_
      · intro j
        rw [hrow.1 j, prevRow, if_neg (by omega : ¬ i + 1 = 0),
          Nat.add_sub_cancel]
      · exact hrow.2.2

theorem extendLeftGo_self (a : List α) : ∀ (d s : Nat), d + s ≤ a.length →
    extendLeftGo a a 0 0 d d d s = (0, 0, s + d) := by
  intro d
  induction d with
  | zero =>
    intro s h
    simp [extendLeftGo]
  | succ d ih =>
    intro s h
    have hsome : (a[d + 1 - 1]?).isSome = true := by
      simp only [Nat.add_sub_cancel]
      rw [List.getElem?_eq_getElem (by omega : d < a.length)]
      rfl
    simp only [extendLeftGo]
    rw [if_pos ⟨by omega, by omega, trivial, hsome⟩]
    simp only [Nat.add_sub_cancel]
    rw [ih (s + 1) (by omega)]
    have he : s + 1 + d = s + (d + 1) := by omega
    rw [he]

theorem extendRightGo_self (a : List α) (n : Nat) (hn : n = a.length) :
    ∀ (fuel s : Nat), s + fuel = n → extendRightGo a a n n 0 0 fuel s = n := by
  intro fuel
  induction fuel with
  | zero =>
    intro s h
    simp only [extendRightGo]
    omega
  | succ f ih =>
    intro s h
    have hsome : (a[0 + s]?).isSome = true := by
      simp only [Nat.zero_add]
      rw [List.getElem?_eq_getElem (by omega : s < a.length)]
      rfl
    simp only [extendRightGo]
    rw [if_pos ⟨by omega, by omega, trivial, hsome⟩]
    exact ih (s + 1) (by omega)

/-- `find_longest_match` over the full self-comparison window returns the
whole diagonal. -/
theorem flm_self (a : List α) : flm a a 0 a.length 0 a.length = (0, 0, a.length) := by
  have hdiag := mainDiag a a.length rfl a.length 0 (by omega) (fun _ => 0)
    (0, 0, 0) (fun j => by simp [prevRow]) rfl (by simp [maxRun])
  have hbb := mainLoop_bounds a a 0 0 a.length a.length 0 (fun _ => 0) (0, 0, 0)
    (le_refl 0) (fun j hj => absurd rfl hj)
    ⟨le_refl 0, le_refl 0, by simp, by simp⟩
  simp only [flm, Nat.sub_zero]
  dsimp only [BB] at hbb
  set M := mainLoop a a 0 a.length (List.range' 0 a.length) (fun _ => 0)
    (0, 0, 0) with hM
  simp only [extendLeft]
  rw [← hdiag]
  rw [extendLeftGo_self a M.1 M.2.2 (by omega)]
  simp only [extendRight, Nat.zero_add]
  rw [extendRightGo_self a a.length rfl (a.length - (M.2.2 + M.1))
    (M.2.2 + M.1) (by omega)]

theorem gmbGoF_nil (a b : List α) : ∀ (fuel : Nat) (acc : List (Nat × Nat × Nat)),
    gmbGoF a b fuel [] acc = acc := by
  intro fuel acc
  cases fuel with
  | zero => rfl
  | succ f => rfl

/-- `get_matching_blocks` on the self comparison: the whole diagonal and
the sentinel (the sentinel alone when empty). -/
theorem gmbGoF_step_full (a : List α) (n fuel : Nat) (hn0 : ¬ n = 0)
    (hflm : flm a a 0 n 0 n = (0, 0, n)) :
    gmbGoF a a (fuel + 1) [(0, n, 0, n)] [] = [(0, 0, n)] := by
  simp only [gmbGoF, hflm]
  have h1 : ¬(0 + n < n ∧ 0 + n < n) := by omega
  have h2 : ¬((0 : Nat) < 0 ∧ (0 : Nat) < 0) := by simp
  simp only [if_neg h1, if_neg h2, if_pos hn0, gmbGoF_nil, List.nil_append]

/-- `get_matching_blocks` on the self comparison: the whole diagonal and
the sentinel (the sentinel alone when empty). -/
theorem getMatchingBlocks_self (a : List α) :
    getMatchingBlocks a a =
      if a.length = 0 then [(0, 0, 0)]
      else [(0, 0, a.length), (a.length, a.length, 0)] := by
  by_cases h0 : a.length = 0
  · rw [if_pos h0]
    have ha : a = [] := List.length_eq_zero.mp h0
    subst ha
    rfl
  · rw [if_neg h0]
    unfold getMatchingBlocks
    have hq : qmeasure [(0, a.length, 0, a.length)] =
        a.length + a.length + 1 := by
      simp [qmeasure, wsize]
    rw [hq, gmbGoF_step_full a a.length (a.length + a.length) h0 (flm_self a)]
    show (if 0 + a.length ≠ 0 then [(0, 0, 0 + a.length)] else []) ++
        [(a.length, a.length, 0)] =
      [(0, 0, a.length), (a.length, a.length, 0)]
    rw [if_pos (by omega : ¬ (0 + a.length = 0))]
    simp

/-- `ratio()` of a sequence against itself is exactly `1`. -/
theorem ratio_self (a : List α) : ratioValue a a = 1 := by
  unfold ratioValue
  rw [getMatchingBlocks_self]
  by_cases h0 : a.length = 0
  · rw [if_pos h0]
    simp [h0]
  · rw [if_neg h0]
    simp only [List.map_cons, List.map_nil, List.sum_cons, List.sum_nil]
    rw [if_pos (by omega : ¬ (a.length + a.length = 0))]
    have hn : (a.length : ℚ) ≠ 0 := Nat.cast_ne_zero.mpr h0
    push_cast
    field_simp
    ring

/-- `get_opcodes` on the self comparison: one equal opcode over the whole
windows (none at all when empty). -/
theorem getOpcodes_self (a : List α) :
    getOpcodes a a =
      if a.length = 0 then []
      else [⟨Tag.equal, 0, a.length, 0, a.length⟩] := by
  unfold getOpcodes
  rw [getMatchingBlocks_self]
  by_cases h0 : a.length = 0
  · rw [if_pos h0, if_pos h0]
    rfl
  · rw [if_neg h0, if_neg h0]
    simp only [opcodesGo]
    rw [if_neg (by omega), if_neg (by omega), if_neg (by omega)]
    rw [if_pos h0]
    rw [if_neg (by omega), if_neg (by omega), if_neg (by omega)]
    rw [if_neg (by omega : ¬ ((0 : Nat) ≠ 0))]
    simp

/-- A group that stays a single equal opcode of width at most `2 n` is
not yielded. -/
theorem groupLoop_single_equal (nc : Nat) (c : Opcode) (htag : c.tag = Tag.equal)
    (hw : c.i2 - c.i1 ≤ nc + nc) : groupLoop nc [] [c] = [] := by
  simp only [groupLoop]
  rw [if_neg (by intro hcon; omega)]
  simp only [List.nil_append, groupLoop]
  rw [if_neg ?_]
  intro hcon
  exact hcon.2 ⟨by simp, by simp [htag]⟩

/-- The two context fixups on a single whole-window equal opcode. -/
theorem fixups_single_equal (nc i2 j2 : Nat) :
    fixupLast nc (fixupHead nc [⟨Tag.equal, 0, i2, 0, j2⟩]) =
      [⟨Tag.equal, max 0 (i2 - nc), min i2 (max 0 (i2 - nc) + nc),
        max 0 (j2 - nc), min j2 (max 0 (j2 - nc) + nc)⟩] := rfl

/-- `get_grouped_opcodes` on the self comparison yields no group at all:
the single equal opcode, trimmed by the context fixups to width at most
`n`, is dropped by the final single-equal-group test. -/
theorem getGroupedOpcodes_self (a : List α) (nc : Nat) :
    getGroupedOpcodes a a nc = [] := by
  unfold getGroupedOpcodes
  rw [getOpcodes_self]
  by_cases h0 : a.length = 0
  · rw [if_pos h0]
    show groupLoop nc [] (fixupLast nc (fixupHead nc
      [⟨Tag.equal, 0, 1, 0, 1⟩])) = []
    rw [fixups_single_equal]
    exact groupLoop_single_equal nc _ rfl (by dsimp only; omega)
  · rw [if_neg h0]
    show groupLoop nc [] (fixupLast nc (fixupHead nc
      [⟨Tag.equal, 0, a.length, 0, a.length⟩])) = []
    rw [fixups_single_equal]
    exact groupLoop_single_equal nc _ rfl (by dsimp only; omega)

end SelfCompare

theorem pyRound_one (d : ℕ) : pyRound 1 d = 1 := by
  unfold pyRound
  rw [one_mul]
  have h : ((10 : ℚ) ^ d) = (((10 : ℤ) ^ d : ℤ) : ℚ) := by push_cast; ring
  rw [h, rhe_intCast, ← h]
  exact div_self (by positivity)

/-- All three similarity scores of a text against itself are `1`. -/
theorem similarity_scores_self (a : List Char) :
    similarity_scores a a = (1, 1, 1) := by
  unfold similarity_scores
  rw [ratio_self, ratio_self]
  have hint : ((findallWords (pyLower a)).dedup).filter
      (fun t => decide (t ∈ (findallWords (pyLower a)).dedup)) =
      (findallWords (pyLower a)).dedup :=
    List.filter_eq_self.mpr (fun x hx => by simpa using hx)
  have huni : ((findallWords (pyLower a)).dedup).filter
      (fun t => decide (t ∉ (findallWords (pyLower a)).dedup)) = [] :=
    List.filter_eq_nil_iff.mpr (fun x hx => by simpa using hx)
  dsimp only
  rw [hint, huni]
  by_cases ht : (findallWords (pyLower a)).dedup = []
  · rw [if_neg (by simp [ht])]
  · rw [if_pos (Or.inl ht)]
    simp only [List.length_nil, Nat.add_zero]
    have hlen : ((findallWords (pyLower a)).dedup.length : ℚ) ≠ 0 := by
      simp only [ne_eq, Nat.cast_eq_zero, List.length_eq_zero]
      exact ht
    rw [div_self hlen]

/-- The unified diff of a line sequence against itself is the sentinel
(no group is generated, so the joined text is empty and the Python
`or` picks the literal). -/
theorem unified_diff_text_self (ll : List (List Char)) (ln rn : List Char)
    (nc : Nat) :
    unified_diff_text ll ll ln rn nc = ("(no differences)").data := by
  unfold unified_diff_text unifiedDiffLines
  rw [getGroupedOpcodes_self]
  simp

theorem parse_sentinel : parse_unified_diff (("(no differences)").data) = [] := by
  decide

theorem simple_heuristics_nil :
    simple_heuristics [] =
      { risk_flags := [], numeric_changes := [], removed_keywords := [],
        added_keywords := [] } := rfl

/-- C1: comparing any text with itself, under any names, context count
and whitespace flag, yields a record with all three similarities exactly
`1`, the `(no differences)` sentinel as its unified diff, no hunks, and
empty heuristics. -/
theorem C1_self_compare (a left_name right_name : List Char) (n_context : Nat)
    (strip_ws : Bool) (timeStr uuidHex : List Char) :
    (make_change_record a a left_name right_name n_context strip_ws timeStr
        uuidHex).stats.char_similarity = 1 ∧
    (make_change_record a a left_name right_name n_context strip_ws timeStr
        uuidHex).stats.line_similarity = 1 ∧
    (make_change_record a a left_name right_name n_context strip_ws timeStr
        uuidHex).stats.token_jaccard = 1 ∧
    (make_change_record a a left_name right_name n_context strip_ws timeStr
        uuidHex).unified_diff = ("(no differences)").data ∧
    (make_change_record a a left_name right_name n_context strip_ws timeStr
        uuidHex).hunks = [] ∧
    (make_change_record a a left_name right_name n_context strip_ws timeStr
        uuidHex).heuristics =
      { risk_flags := [], numeric_changes := [], removed_keywords := [],
        added_keywords := [] } := by
  have hs : similarity_scores a a = (1, 1, 1) := similarity_scores_self a
  have hu : unified_diff_text (to_lines a strip_ws) (to_lines a strip_ws)
      left_name right_name n_context = ("(no differences)").data :=
    unified_diff_text_self _ _ _ _
  unfold make_change_record
  dsimp only
  rw [hs, hu, parse_sentinel]
  dsimp only
  refine ⟨pyRound_one 4, pyRound_one 4, pyRound_one 4, rfl, rfl,
    simple_heuristics_nil⟩

/-! ### Line structure of the generated diff text -/

/-- No line-boundary character occurs. -/
def lineFree (l : List Char) : Bool :=
  l.all (fun c => !isLineBreak c)

theorem splitlinesGo_cons_nl (acc rest : List Char) :
    splitlinesGo acc ('\n' :: rest) = acc.reverse :: splitlinesGo [] rest := rfl

theorem splitlinesGo_cons_nobreak (acc : List Char) (c : Char) (rest : List Char)
    (hc : isLineBreak c = false) :
    splitlinesGo acc (c :: rest) = splitlinesGo (c :: acc) rest := by
  have hcr : c ≠ '\r' := by
    intro h
    subst h
    exact absurd hc (by decide)
  rw [splitlinesGo.eq_def]
  split
  · rename_i heq
    exact absurd heq (by simp)
  · rename_i heq
    rw [List.cons.injEq] at heq
    exact absurd heq.1 hcr
  · rename_i c2 rest2 heq
    rw [List.cons.injEq] at heq
    obtain ⟨h1, h2⟩ := heq
    subst h1
    subst h2
    rw [if_neg (by simp [hc])]

theorem splitlinesGo_free_append (b : List Char) (hb : lineFree b = true) :
    ∀ (acc rest : List Char),
      splitlinesGo acc (b ++ rest) = splitlinesGo (b.reverse ++ acc) rest := by
  induction b with
  | nil => intro acc rest; simp
  | cons c b2 ih =>
    intro acc rest
    simp only [lineFree, List.all_cons, Bool.and_eq_true, Bool.not_eq_true'] at hb
    rw [List.cons_append, splitlinesGo_cons_nobreak acc c _ hb.1]
    rw [ih (by simp [lineFree, hb.2]) (c :: acc) rest]
    simp

/-- The set of per-piece line chunks a `"\n"`-join produces. -/
def splitJoin : List (List Char) → List (List Char)
  | [] => []
  | [y] => pySplitlines y
  | y :: ys => pySplitlines (y ++ [ '\n' ]) ++ splitJoin ys

/-- A piece is a header-style line (no boundary characters) or a content
line (a boundary-free body plus its terminating newline). -/
def pieceOk (y : List Char) : Prop :=
  lineFree y = true ∨ ∃ m, lineFree m = true ∧ y = m ++ [ '\n' ]

theorem splitlines_join (ys : List (List Char)) (h : ∀ y ∈ ys, pieceOk y) :
    pySplitlines (joinSep [ '\n' ] ys) = splitJoin ys := by
  induction ys with
  | nil => rfl
  | cons y ys ih =>
    cases ys with
    | nil => rfl
    | cons y2 ys2 =>
      have hjoin : joinSep [ '\n' ] (y :: y2 :: ys2) =
          y ++ ('\n' :: joinSep [ '\n' ] (y2 :: ys2)) := by
        simp [joinSep]
      rw [hjoin]
      rcases h y (by simp) with hy | ⟨m, hm, rfl⟩
      · have hchunk : pySplitlines (y ++ [ '\n' ]) = [y] := by
          show splitlinesGo [] _ = _
          rw [splitlinesGo_free_append y hy [] [ '\n' ]]
          rw [List.append_nil, splitlinesGo_cons_nl]
          simp [splitlinesGo]
        show splitlinesGo [] _ = _
        rw [splitlinesGo_free_append y hy [] _, List.append_nil,
          splitlinesGo_cons_nl]
        have hrhs : splitJoin (y :: y2 :: ys2) =
            pySplitlines (y ++ [ '\n' ]) ++ splitJoin (y2 :: ys2) := rfl
        rw [hrhs, hchunk]
        show y.reverse.reverse :: pySplitlines (joinSep [ '\n' ] (y2 :: ys2)) = _
        rw [ih (fun z hz => h z (by simp [hz]))]
        simp
      · have hchunk : pySplitlines ((m ++ [ '\n' ]) ++ [ '\n' ]) = [m, []] := by
          show splitlinesGo [] _ = _
          rw [List.append_assoc, splitlinesGo_free_append m hm []]
          rw [List.append_nil]
          show splitlinesGo m.reverse ('\n' :: [ '\n' ]) = _
          rw [splitlinesGo_cons_nl, splitlinesGo_cons_nl]
          simp [splitlinesGo]
        show splitlinesGo [] _ = _
        rw [List.append_assoc, splitlinesGo_free_append m hm []]
        rw [List.append_nil]
        show splitlinesGo m.reverse ('\n' :: ('\n' :: _)) = _
        rw [splitlinesGo_cons_nl, splitlinesGo_cons_nl]
        have hrhs : splitJoin ((m ++ [ '\n' ]) :: y2 :: ys2) =
            pySplitlines ((m ++ [ '\n' ]) ++ [ '\n' ]) ++ splitJoin (y2 :: ys2) := rfl
        rw [hrhs, hchunk]
        show m.reverse.reverse :: ([] : List Char).reverse ::
            pySplitlines (joinSep [ '\n' ] (y2 :: ys2)) = _
        rw [ih (fun z hz => h z (by simp [hz]))]
        simp

/-- Every line `str.splitlines` produces is boundary-free. -/
theorem pySplitlines_lineFree (s : List Char) :
    ∀ l ∈ pySplitlines s, lineFree l = true := by
  have main : ∀ (n : Nat) (s acc : List Char), s.length ≤ n →
      lineFree acc.reverse = true →
      ∀ l ∈ splitlinesGo acc s, lineFree l = true := by
    intro n
    induction n with
    | zero =>
      intro s acc hlen hacc l hl
      have hs : s = [] := List.length_eq_zero.mp (Nat.le_zero.mp hlen)
      subst hs
      simp only [splitlinesGo] at hl
      split at hl
      · simp at hl
      · rw [List.mem_singleton] at hl
        subst hl
        exact hacc
    | succ n ih =>
      intro s acc hlen hacc l hl
      cases s with
      | nil =>
        simp only [splitlinesGo] at hl
        split at hl
        · simp at hl
        · rw [List.mem_singleton] at hl
          subst hl
          exact hacc
      | cons c s2 =>
        by_cases hc : isLineBreak c = true
        · by_cases hcr : c = '\r'
          · subst hcr
            cases s2 with
            | nil =>
              rw [show splitlinesGo acc [ '\r' ] =
                  acc.reverse :: splitlinesGo [] [] from rfl] at hl
              rcases List.mem_cons.mp hl with h | h
              · subst h; exact hacc
              · simp [splitlinesGo] at h
            | cons c2 s3 =>
              by_cases hc2 : c2 = '\n'
              · subst hc2
                rw [show splitlinesGo acc ('\r' :: '\n' :: s3) =
                    acc.reverse :: splitlinesGo [] s3 from rfl] at hl
                rcases List.mem_cons.mp hl with h | h
                · subst h; exact hacc
                · exact ih s3 [] (by simp at hlen ⊢; omega) (by decide) l h
              · rw [splitlinesGo.eq_def] at hl
                split at hl
                · simp_all
                · rename_i heq
                  rw [List.cons.injEq, List.cons.injEq] at heq
                  exact absurd heq.2.1 hc2
                · rename_i heq
                  rw [List.cons.injEq] at heq
                  obtain ⟨h1, h2⟩ := heq
                  subst h1
                  subst h2
                  rw [if_pos (by decide)] at hl
                  rcases List.mem_cons.mp hl with h | h
                  · subst h; exact hacc
                  · exact ih (c2 :: s3) [] (by simp at hlen ⊢; omega)
                      (by decide) l h
          · rw [splitlinesGo.eq_def] at hl
            split at hl
            · simp_all
            · rename_i heq
              rw [List.cons.injEq] at heq
              exact absurd heq.1 hcr
            · rename_i heq
              rw [List.cons.injEq] at heq
              obtain ⟨h1, h2⟩ := heq
              subst h1
              subst h2
              rw [if_pos hc] at hl
              rcases List.mem_cons.mp hl with h | h
              · subst h; exact hacc
              · exact ih s2 [] (by simp at hlen ⊢; omega) (by decide) l h
        · rw [splitlinesGo_cons_nobreak acc c s2 (Bool.eq_false_iff.mpr hc)] at hl
          refine ih s2 (c :: acc) (by simp at hlen ⊢; omega) ?_ l hl
          simp only [List.reverse_cons, lineFree, List.all_append, List.all_cons,
            List.all_nil, Bool.and_true, Bool.and_eq_true]
          constructor
          · simpa [lineFree] using hacc
          · simp [Bool.eq_false_iff.mpr hc]
  exact main s.length s [] (le_refl _) (by decide)

theorem lineFree_natToChars (n : Nat) : lineFree (natToChars n) = true := by
  obtain ⟨_, hdig, _⟩ := natToChars_spec n
  rw [lineFree, List.all_eq_true]
  intro c hc
  have := (List.all_eq_true.mp hdig) c hc
  simp only [isDigitCh, Bool.and_eq_true, decide_eq_true_eq] at this
  simp only [Bool.not_eq_true', isLineBreak]
  simp only [Bool.or_eq_false_iff, decide_eq_false_iff_not]
  omega

theorem lineFree_append (x y : List Char) :
    lineFree (x ++ y) = (lineFree x && lineFree y) := by
  simp [lineFree, List.all_append]

theorem lineFree_formatRange (s e : Nat) :
    lineFree (formatRangeUnified s e) = true := by
  unfold formatRangeUnified
  dsimp only
  split
  · exact lineFree_natToChars _
  · simp only [lineFree_append, Bool.and_eq_true]
    exact ⟨⟨lineFree_natToChars _, by decide⟩, lineFree_natToChars _⟩

theorem lineFree_groupHeader (g : List Opcode) :
    lineFree (groupHeader g) = true := by
  unfold groupHeader
  simp only [lineFree_append, Bool.and_eq_true]
  exact ⟨⟨⟨⟨by decide, lineFree_formatRange _ _⟩, by decide⟩,
    lineFree_formatRange _ _⟩, by decide⟩

/-- Every line `to_lines` produces is a boundary-free body plus one
terminating newline. -/
theorem to_lines_shape (s : List Char) (sw : Bool) :
    ∀ l ∈ to_lines s sw, ∃ m, lineFree m = true ∧ l = m ++ [ '\n' ] := by
  intro l hl
  unfold to_lines at hl
  split at hl
  · obtain ⟨line, hline, rfl⟩ := List.mem_map.mp hl
    refine ⟨pyStrip line, ?_, rfl⟩
    have hfree := pySplitlines_lineFree s line hline
    have hsub : ∀ c ∈ pyStrip line, c ∈ line := by
      intro c hc
      unfold pyStrip at hc
      rw [List.mem_reverse] at hc
      have h1 := (List.dropWhile_sublist (l := (line.dropWhile pyIsSpace).reverse)
        (p := pyIsSpace)).subset hc
      rw [List.mem_reverse] at h1
      exact (List.dropWhile_sublist (l := line) (p := pyIsSpace)).subset h1
    rw [lineFree, List.all_eq_true]
    intro c hc
    exact (List.all_eq_true.mp hfree) c (hsub c hc)
  · obtain ⟨line, hline, rfl⟩ := List.mem_map.mp hl
    have hfree := pySplitlines_lineFree s line hline
    have hend : pyEndswith line [ '\n' ] = false := by
      by_cases h : pyEndswith line [ '\n' ] = true
      · exfalso
        unfold pyEndswith at h
        have hpre := List.isPrefixOf_iff_prefix.mp h
        have hmem : '\n' ∈ line.reverse := hpre.subset (by simp)
        rw [List.mem_reverse] at hmem
        have := (List.all_eq_true.mp hfree) _ hmem
        exact absurd this (by decide)
      · exact Bool.eq_false_iff.mpr h
    rw [hend]
    exact ⟨line, hfree, rfl⟩


section ChainInv

variable {α : Type} [DecidableEq α]

/-- Block `x` lies entirely before block `y` on both sides. -/
def BSep (x y : Nat × Nat × Nat) : Prop :=
  x.1 + x.2.2 ≤ y.1 ∧ x.2.1 + x.2.2 ≤ y.2.1

/-- The window is inside the two sequences and nondegenerate. -/
def WIn (la lb : Nat) (w : Nat × Nat × Nat × Nat) : Prop :=
  w.1 ≤ w.2.1 ∧ w.2.2.1 ≤ w.2.2.2 ∧ w.2.1 ≤ la ∧ w.2.2.2 ≤ lb

/-- Window `w1` lies entirely before window `w2`. -/
def WOrd (w1 w2 : Nat × Nat × Nat × Nat) : Prop :=
  w1.2.1 ≤ w2.1 ∧ w1.2.2.2 ≤ w2.2.2.1

/-- The block lies entirely before the window, or after it. -/
def BWSep (x : Nat × Nat × Nat) (w : Nat × Nat × Nat × Nat) : Prop :=
  (x.1 + x.2.2 ≤ w.1 ∧ x.2.1 + x.2.2 ≤ w.2.2.1) ∨
  (w.2.1 ≤ x.1 ∧ w.2.2.2 ≤ x.2.1)

/-- The queue invariant of `get_matching_blocks`: every window in
bounds, the stack ordered front-to-back, every found block in bounds,
nonempty and pairwise separated, and every found block separated from
every pending window.  The conclusion survives fuel exhaustion (the
result is then the accumulator, which satisfies it). -/
theorem gmbGoF_inv (a b : List α) : ∀ (fuel : Nat)
    (queue : List (Nat × Nat × Nat × Nat)) (acc : List (Nat × Nat × Nat)),
    (∀ w ∈ queue, WIn a.length b.length w) →
    List.Pairwise (fun w1 w2 => WOrd w2 w1) queue →
    (∀ x ∈ acc, x.1 + x.2.2 ≤ a.length ∧ x.2.1 + x.2.2 ≤ b.length ∧
      x.2.2 ≠ 0) →
    List.Pairwise (fun x y => BSep x y ∨ BSep y x) acc →
    (∀ x ∈ acc, ∀ w ∈ queue, BWSep x w) →
    (∀ x ∈ gmbGoF a b fuel queue acc,
        x.1 + x.2.2 ≤ a.length ∧ x.2.1 + x.2.2 ≤ b.length ∧ x.2.2 ≠ 0) ∧
    List.Pairwise (fun x y => BSep x y ∨ BSep y x)
      (gmbGoF a b fuel queue acc) := by
  intro fuel
  induction fuel with
  | zero =>
    intro queue acc _ _ hacc hpw _
    exact ⟨hacc, hpw⟩
  | succ f ih =>
    intro queue acc hwin hword hacc hpw hbw
    cases queue with
    | nil => exact ⟨hacc, hpw⟩
    | cons w rest =>
      obtain ⟨alo, ahi, blo, bhi⟩ := w
      have hw := hwin (alo, ahi, blo, bhi) (List.mem_cons_self _ _)
      dsimp only [WIn] at hw
      have hbb := flm_bounds a b alo ahi blo bhi hw.1 hw.2.1
      dsimp only [BB] at hbb
      simp only [gmbGoF]
      set r := flm a b alo ahi blo bhi with hr
      by_cases hk : r.2.2 ≠ 0
      · rw [if_pos hk]
        have hword1 := List.pairwise_cons.mp hword
        -- the two optional sub-windows
        set q1 := if alo < r.1 ∧ blo < r.2.1 then
            (alo, r.1, blo, r.2.1) :: rest else rest with hq1
        set q2 := if r.1 + r.2.2 < ahi ∧ r.2.1 + r.2.2 < bhi then
            (r.1 + r.2.2, ahi, r.2.1 + r.2.2, bhi) :: q1 else q1 with hq2
        have hq1mem : ∀ w2 ∈ q1, w2 ∈ rest ∨ w2 = (alo, r.1, blo, r.2.1) := by
          intro w2 hw2
          rw [hq1] at hw2
          split at hw2
          · rcases List.mem_cons.mp hw2 with h | h
            · exact Or.inr h
            · exact Or.inl h
          · exact Or.inl hw2
        have hq2mem : ∀ w2 ∈ q2, w2 ∈ rest ∨ w2 = (alo, r.1, blo, r.2.1) ∨
            w2 = (r.1 + r.2.2, ahi, r.2.1 + r.2.2, bhi) := by
          intro w2 hw2
          rw [hq2] at hw2
          split at hw2
          · rcases List.mem_cons.mp hw2 with h | h
            · exact Or.inr (Or.inr h)
            · rcases hq1mem w2 h with h2 | h2
              · exact Or.inl h2
              · exact Or.inr (Or.inl h2)
          · rcases hq1mem w2 hw2 with h2 | h2
            · exact Or.inl h2
            · exact Or.inr (Or.inl h2)
        refine ih q2 (acc ++ [r]) ?_ ?_ ?_ ?_ ?_
        · intro w2 hw2
          rcases hq2mem w2 hw2 with h | h | h
          · exact hwin w2 (by simp [h])
          · subst h
            dsimp only [WIn]
            exact ⟨hbb.1, hbb.2.1, by omega, by omega⟩
          · subst h
            dsimp only [WIn]
            exact ⟨by omega, by omega, hw.2.2.1, hw.2.2.2⟩
        · -- pairwise stack order of q2 (head latest, tail earlier)
          have hrest : List.Pairwise (fun w1 w2 => WOrd w2 w1) rest := hword1.2
          have hsub1 : List.Pairwise (fun w1 w2 => WOrd w2 w1)
              ((alo, r.1, blo, r.2.1) :: rest) := by
            rw [List.pairwise_cons]
            refine ⟨?_, hrest⟩
            intro w2 hw2
            have := hword1.1 w2 hw2
            dsimp only [WOrd] at this ⊢
            omega
          rw [hq2]
          split
          · rw [List.pairwise_cons]
            constructor
            · intro w2 hw2
              rcases hq1mem w2 hw2 with h | h
              · have := hword1.1 w2 h
                dsimp only [WOrd] at this ⊢
                omega
              · subst h
                dsimp only [WOrd]
                omega
            · rw [hq1]
              split
              · exact hsub1
              · exact hrest
          · rw [hq1]
            split
            · exact hsub1
            · exact hrest
        · intro x hx
          rcases List.mem_append.mp hx with h | h
          · exact hacc x h
          · rw [List.mem_singleton] at h
            subst h
            exact ⟨by omega, by omega, hk⟩
        · rw [List.pairwise_append]
          refine ⟨hpw, by simp, ?_⟩
          intro x hx y hy
          rw [List.mem_singleton] at hy
          subst hy
          have := hbw x hx _ (List.mem_cons_self _ _)
          dsimp only [BWSep] at this
          rcases this with h | h
          · exact Or.inl ⟨by omega, by omega⟩
          · exact Or.inr ⟨by omega, by omega⟩
        · intro x hx w2 hw2
          rcases List.mem_append.mp hx with h | h
          · rcases hq2mem w2 hw2 with h2 | h2 | h2
            · exact hbw x h w2 (by simp [h2])
            · subst h2
              have := hbw x h _ (List.mem_cons_self _ _)
              dsimp only [BWSep] at this ⊢
              omega
            · subst h2
              have := hbw x h _ (List.mem_cons_self _ _)
              dsimp only [BWSep] at this ⊢
              omega
          · rw [List.mem_singleton] at h
            subst h
            rcases hq2mem w2 hw2 with h2 | h2 | h2
            · have := hword1.1 w2 h2
              dsimp only [WOrd] at this
              dsimp only [BWSep]
              exact Or.inr ⟨by omega, by omega⟩
            · subst h2
              dsimp only [BWSep]
              exact Or.inr ⟨by omega, by omega⟩
            · subst h2
              dsimp only [BWSep]
              exact Or.inl ⟨by omega, by omega⟩
      · rw [if_neg hk]
        refine ih rest acc (fun w2 hw2 => hwin w2 (by simp [hw2]))
          (List.pairwise_cons.mp hword).2 hacc hpw
          (fun x hx w2 hw2 => hbw x hx w2 (by simp [hw2]))

theorem blockLE_of_BSep {x y : Nat × Nat × Nat} (h : BSep x y)
    (_hk : x.2.2 ≠ 0) : blockLE x y = true := by
  dsimp only [BSep] at h
  simp only [blockLE, Bool.or_eq_true, Bool.and_eq_true, decide_eq_true_eq]
  omega

theorem le_of_blockLE {x y : Nat × Nat × Nat} (h : blockLE x y = true) :
    x.1 ≤ y.1 := by
  simp only [blockLE, Bool.or_eq_true, Bool.and_eq_true, decide_eq_true_eq] at h
  omega

theorem mem_insertBlock (x y : Nat × Nat × Nat) :
    ∀ l, y ∈ insertBlock x l ↔ y = x ∨ y ∈ l := by
  intro l
  induction l with
  | nil => simp [insertBlock]
  | cons z zs ih =>
    simp only [insertBlock]
    split
    · simp
    · simp only [List.mem_cons, ih]
      tauto

theorem mem_sortBlocks (y : Nat × Nat × Nat) :
    ∀ l, y ∈ sortBlocks l ↔ y ∈ l := by
  intro l
  induction l with
  | nil => simp [sortBlocks]
  | cons z zs ih =>
    simp only [sortBlocks, mem_insertBlock, ih, List.mem_cons]

theorem insertBlock_pairwise (x : Nat × Nat × Nat) (hxk : x.2.2 ≠ 0) :
    ∀ l, (∀ y ∈ l, y.2.2 ≠ 0) → (∀ y ∈ l, BSep x y ∨ BSep y x) →
    List.Pairwise BSep l → List.Pairwise BSep (insertBlock x l) := by
  intro l
  induction l with
  | nil =>
    intro _ _ _
    simp [insertBlock]
  | cons y ys ih =>
    intro hlk hcomp hl
    have hly := List.pairwise_cons.mp hl
    simp only [insertBlock]
    split
    · rename_i hle
      rw [List.pairwise_cons]
      constructor
      · intro z hz
        rcases List.mem_cons.mp hz with h | h
        · subst h
          rcases hcomp z (by simp) with h2 | h2
          · exact h2
          · exfalso
            have := le_of_blockLE hle
            have hzk := hlk z (by simp)
            dsimp only [BSep] at h2
            omega
        · rcases hcomp z (by simp [h]) with h2 | h2
          · exact h2
          · exfalso
            have h3 := hly.1 z h
            have hyx : BSep x y := by
              rcases hcomp y (by simp) with h4 | h4
              · exact h4
              · exfalso
                have := le_of_blockLE hle
                have hyk := hlk y (by simp)
                dsimp only [BSep] at h4
                omega
            have hzk := hlk z (by simp [h])
            have hyk := hlk y (by simp)
            dsimp only [BSep] at h2 h3 hyx
            omega
      · exact hl
    · rename_i hle
      rw [List.pairwise_cons]
      constructor
      · intro z hz
        rcases (mem_insertBlock x z ys).mp hz with rfl | h
        · rcases hcomp y (by simp) with h2 | h2
          · exact absurd (blockLE_of_BSep h2 hxk) hle
          · exact h2
        · exact hly.1 z h
      · exact ih (fun y2 hy2 => hlk y2 (by simp [hy2]))
          (fun y2 hy2 => hcomp y2 (by simp [hy2])) hly.2

theorem sortBlocks_pairwise :
    ∀ l : List (Nat × Nat × Nat), (∀ y ∈ l, y.2.2 ≠ 0) →
    List.Pairwise (fun x y => BSep x y ∨ BSep y x) l →
    List.Pairwise BSep (sortBlocks l) := by
  intro l
  induction l with
  | nil =>
    intro _ _
    simp [sortBlocks]
  | cons x xs ih =>
    intro hk hpw
    have hx := List.pairwise_cons.mp hpw
    simp only [sortBlocks]
    refine insertBlock_pairwise x (hk x (by simp)) (sortBlocks xs) ?_ ?_
      (ih (fun y hy => hk y (by simp [hy])) hx.2)
    · intro y hy
      exact hk y (by simp [(mem_sortBlocks y xs).mp hy])
    · intro y hy
      exact hx.1 y ((mem_sortBlocks y xs).mp hy)

/-- Chain of matching blocks: each block starts at or after the running
cursor, stays in bounds, and the cursor advances past it; the final
cursor is in bounds. -/
def BChain (la lb : Nat) : Nat → Nat → List (Nat × Nat × Nat) → Prop
  | i, j, [] => i ≤ la ∧ j ≤ lb
  | i, j, (bi, bj, k) :: rest =>
    i ≤ bi ∧ j ≤ bj ∧ bi + k ≤ la ∧ bj + k ≤ lb ∧
      BChain la lb (bi + k) (bj + k) rest

theorem BChain_mono (la lb : Nat) : ∀ (bs : List (Nat × Nat × Nat))
    (i j i2 j2 : Nat), BChain la lb i j bs → i2 ≤ i → j2 ≤ j →
    BChain la lb i2 j2 bs := by
  intro bs
  cases bs with
  | nil =>
    intro i j i2 j2 h h1 h2
    dsimp only [BChain] at h ⊢
    omega
  | cons b rest =>
    intro i j i2 j2 h h1 h2
    obtain ⟨bi, bj, k⟩ := b
    dsimp only [BChain] at h ⊢
    exact ⟨by omega, by omega, h.2.2.1, h.2.2.2.1, h.2.2.2.2⟩

/-- The collapse loop turns a pairwise-separated in-bounds block list
into a chain. -/
theorem collapseGo_chain (la lb : Nat) : ∀ (bs : List (Nat × Nat × Nat))
    (i1 j1 k1 : Nat),
    i1 + k1 ≤ la → j1 + k1 ≤ lb →
    (∀ x ∈ bs, x.1 + x.2.2 ≤ la ∧ x.2.1 + x.2.2 ≤ lb) →
    (∀ x ∈ bs, i1 + k1 ≤ x.1 ∧ j1 + k1 ≤ x.2.1) →
    List.Pairwise BSep bs →
    BChain la lb i1 j1 (collapseGo i1 j1 k1 bs) := by
  intro bs
  induction bs with
  | nil =>
    intro i1 j1 k1 h1 h2 _ _ _
    simp only [collapseGo]
    split
    · dsimp only [BChain]
      exact ⟨le_refl _, le_refl _, h1, h2, by omega, by omega⟩
    · rename_i hk
      simp only [ne_eq, not_not] at hk
      subst hk
      dsimp only [BChain]
      omega
  | cons b rest ih =>
    intro i1 j1 k1 h1 h2 hb hsep hpw
    obtain ⟨i2, j2, k2⟩ := b
    have hb2 := hb (i2, j2, k2) (List.mem_cons_self _ _)
    have hsep2 := hsep (i2, j2, k2) (List.mem_cons_self _ _)
    have hpw2 := List.pairwise_cons.mp hpw
    dsimp only at hb2 hsep2
    simp only [collapseGo]
    split
    · rename_i hadj
      refine ih i1 j1 (k1 + k2) (by omega) (by omega) ?_ ?_ hpw2.2
      · intro x hx
        exact hb x (by simp [hx])
      · intro x hx
        have := hpw2.1 x hx
        dsimp only [BSep] at this
        omega
    · split
      · dsimp only [BChain]
        refine ⟨le_refl _, le_refl _, h1, h2, ?_⟩
        have hrec := ih i2 j2 k2 (by omega) (by omega)
          (fun x hx => hb x (by simp [hx]))
          (fun x hx => by
            have := hpw2.1 x hx
            dsimp only [BSep] at this
            omega) hpw2.2
        exact BChain_mono la lb _ i2 j2 (i1 + k1) (j1 + k1) hrec (by omega)
          (by omega)
      · rename_i hk1
        simp only [ne_eq, not_not] at hk1
        have hrec := ih i2 j2 k2 (by omega) (by omega)
          (fun x hx => hb x (by simp [hx]))
          (fun x hx => by
            have := hpw2.1 x hx
            dsimp only [BSep] at this
            omega) hpw2.2
        exact BChain_mono la lb _ i2 j2 i1 j1 hrec (by omega) (by omega)

theorem BChain_append_sentinel (la lb : Nat) : ∀ (bs : List (Nat × Nat × Nat))
    (i j : Nat), BChain la lb i j bs →
    BChain la lb i j (bs ++ [(la, lb, 0)]) := by
  intro bs
  induction bs with
  | nil =>
    intro i j h
    dsimp only [BChain] at h ⊢
    exact ⟨h.1, h.2, by omega, by omega, by omega, by omega⟩
  | cons b rest ih =>
    intro i j h
    obtain ⟨bi, bj, k⟩ := b
    dsimp only [BChain] at h ⊢
    exact ⟨h.1, h.2.1, h.2.2.1, h.2.2.2.1, ih _ _ h.2.2.2.2⟩

/-- The matching blocks of any two sequences form a chain ending at the
sentinel. -/
theorem getMatchingBlocks_chain (a b : List α) :
    BChain a.length b.length 0 0 (getMatchingBlocks a b) := by
  unfold getMatchingBlocks
  have hinv := gmbGoF_inv a b (qmeasure [(0, a.length, 0, b.length)])
    [(0, a.length, 0, b.length)] []
    (by
      intro w hw
      rw [List.mem_singleton] at hw
      subst hw
      exact ⟨Nat.zero_le _, Nat.zero_le _, le_refl _, le_refl _⟩)
    (by simp) (by simp) (by simp) (by simp)
  apply BChain_append_sentinel
  have hsorted := sortBlocks_pairwise _ (fun y hy => (hinv.1 y hy).2.2) hinv.2
  refine collapseGo_chain a.length b.length _ 0 0 0 (by omega) (by omega)
    ?_ ?_ hsorted
  · intro x hx
    have := hinv.1 x ((mem_sortBlocks x _).mp hx)
    exact ⟨this.1, this.2.1⟩
  · intro x _
    omega

/-- Chain of opcodes: gapless on both sides, in bounds, final cursor in
bounds. -/
def Chain (la lb : Nat) : Nat → Nat → List Opcode → Prop
  | i, j, [] => i ≤ la ∧ j ≤ lb
  | i, j, c :: rest => c.i1 = i ∧ c.j1 = j ∧ i ≤ c.i2 ∧ j ≤ c.j2 ∧
      c.i2 ≤ la ∧ c.j2 ≤ lb ∧ Chain la lb c.i2 c.j2 rest

theorem Chain_cons_op (la lb i j : Nat) (c : Opcode) (rest : List Opcode)
    (h1 : c.i1 = i) (h2 : c.j1 = j) (h3 : i ≤ c.i2) (h4 : j ≤ c.j2)
    (h5 : c.i2 ≤ la) (h6 : c.j2 ≤ lb) (h : Chain la lb c.i2 c.j2 rest) :
    Chain la lb i j (c :: rest) := by
  dsimp only [Chain]
  exact ⟨h1, h2, h3, h4, h5, h6, h⟩

theorem opcodesGo_chain (la lb : Nat) : ∀ (bs : List (Nat × Nat × Nat))
    (i j : Nat), BChain la lb i j bs → Chain la lb i j (opcodesGo i j bs) := by
  intro bs
  induction bs with
  | nil =>
    intro i j h
    dsimp only [BChain] at h
    dsimp only [opcodesGo, Chain]
    exact h
  | cons b rest ih =>
    intro i j h
    obtain ⟨bi, bj, k⟩ := b
    dsimp only [BChain] at h
    obtain ⟨h1, h2, h3, h4, h5⟩ := h
    have hrec := ih (bi + k) (bj + k) h5
    simp only [opcodesGo]
    have hcursor : ∀ L, Chain la lb (bi + k) (bj + k) L →
        Chain la lb bi bj
          ((if k ≠ 0 then [⟨Tag.equal, bi, bi + k, bj, bj + k⟩] else []) ++ L) := by
      intro L hL
      split
      · rw [List.singleton_append]
        exact Chain_cons_op la lb bi bj _ L rfl rfl (by dsimp only; omega)
          (by dsimp only; omega) (by dsimp only; omega) (by dsimp only; omega)
          hL
      · rename_i hk
        simp only [ne_eq, not_not] at hk
        subst hk
        simpa using hL
    by_cases hp1 : i < bi ∧ j < bj
    · rw [if_pos hp1]
      rw [List.singleton_append]
      exact Chain_cons_op la lb i j _ _ rfl rfl (by dsimp only; omega)
        (by dsimp only; omega) (by dsimp only; omega) (by dsimp only; omega)
        (hcursor _ hrec)
    · rw [if_neg hp1]
      by_cases hp2 : i < bi
      · rw [if_pos hp2]
        rw [List.singleton_append]
        exact Chain_cons_op la lb i j _ _ rfl rfl (by dsimp only; omega)
          (by dsimp only; omega) (by dsimp only; omega) (by dsimp only; omega)
          (hcursor _ hrec)
      · rw [if_neg hp2]
        by_cases hp3 : j < bj
        · rw [if_pos hp3]
          rw [List.singleton_append]
          exact Chain_cons_op la lb i j _ _ rfl rfl (by dsimp only; omega)
            (by dsimp only; omega) (by dsimp only; omega) (by dsimp only; omega)
            (hcursor _ hrec)
        · rw [if_neg hp3]
          rw [List.nil_append]
          have hi : bi = i := by omega
          have hj : bj = j := by omega
          subst hi
          subst hj
          exact hcursor _ hrec

theorem Chain_suffix (la lb : Nat) : ∀ (xs : List Opcode) (i j : Nat)
    (c : Opcode) (rest : List Opcode), Chain la lb i j (xs ++ c :: rest) →
    Chain la lb c.i1 c.j1 (c :: rest) := by
  intro xs
  induction xs with
  | nil =>
    intro i j c rest h
    rw [List.nil_append] at h
    dsimp only [Chain] at h ⊢
    obtain ⟨h1, h2, h3, h4, h5, h6, h7⟩ := h
    subst h1
    subst h2
    exact ⟨rfl, rfl, h3, h4, h5, h6, h7⟩
  | cons x xs ih =>
    intro i j c rest h
    rw [List.cons_append] at h
    dsimp only [Chain] at h
    exact ih _ _ c rest h.2.2.2.2.2.2

theorem Chain_group_take (la lb n : Nat) : ∀ (xs : List Opcode) (i j : Nat)
    (c : Opcode) (rest : List Opcode), Chain la lb i j (xs ++ c :: rest) →
    Chain la lb i j (xs ++
      [⟨c.tag, c.i1, min c.i2 (c.i1 + n), c.j1, min c.j2 (c.j1 + n)⟩]) := by
  intro xs
  induction xs with
  | nil =>
    intro i j c rest h
    rw [List.nil_append] at h ⊢
    dsimp only [Chain] at h ⊢
    obtain ⟨h1, h2, h3, h4, h5, h6, h7⟩ := h
    exact ⟨h1, h2, by omega, by omega, by omega, by omega, by omega, by omega⟩
  | cons x xs ih =>
    intro i j c rest h
    rw [List.cons_append] at h ⊢
    dsimp only [Chain] at h ⊢
    obtain ⟨h1, h2, h3, h4, h5, h6, h7⟩ := h
    exact ⟨h1, h2, h3, h4, h5, h6, ih _ _ c rest h7⟩

theorem Chain_group_drop (la lb n : Nat) (c : Opcode) (rest : List Opcode)
    (h : Chain la lb c.i1 c.j1 (c :: rest)) :
    Chain la lb (max c.i1 (c.i2 - n)) (max c.j1 (c.j2 - n))
      (⟨c.tag, max c.i1 (c.i2 - n), c.i2, max c.j1 (c.j2 - n), c.j2⟩ :: rest) := by
  dsimp only [Chain] at h ⊢
  obtain ⟨h1, h2, h3, h4, h5, h6, h7⟩ := h
  exact ⟨rfl, rfl, by omega, by omega, by omega, by omega, h7⟩

theorem fixupHead_chain (n la lb : Nat) : ∀ (cs : List Opcode) (i j : Nat),
    Chain la lb i j cs → ∃ i2 j2, Chain la lb i2 j2 (fixupHead n cs) := by
  intro cs i j h
  cases cs with
  | nil => exact ⟨i, j, h⟩
  | cons c rest =>
    simp only [fixupHead]
    split
    · have hc := Chain_suffix la lb [] i j c rest (by simpa using h)
      exact ⟨_, _, Chain_group_drop la lb n c rest hc⟩
    · exact ⟨i, j, h⟩

theorem fixupLast_chain (n la lb : Nat) : ∀ (cs : List Opcode) (i j : Nat),
    Chain la lb i j cs → Chain la lb i j (fixupLast n cs) := by
  intro cs
  induction cs with
  | nil => intro i j h; exact h
  | cons c rest ih =>
    intro i j h
    cases rest with
    | nil =>
      simp only [fixupLast]
      split
      · obtain ⟨h1, h2, h3, h4, h5, h6, h7⟩ := h
        obtain ⟨h8, h9⟩ := h7
        exact ⟨h1, h2, by dsimp only; omega, by dsimp only; omega,
          by dsimp only; omega, by dsimp only; omega,
          by dsimp only; omega, by dsimp only; omega⟩
      · exact h
    | cons c2 rest2 =>
      show Chain la lb i j (c :: fixupLast n (c2 :: rest2))
      dsimp only [Chain] at h ⊢
      obtain ⟨h1, h2, h3, h4, h5, h6, h7⟩ := h
      exact ⟨h1, h2, h3, h4, h5, h6, ih _ _ h7⟩

/-- Every group `get_grouped_opcodes`-style grouping emits is a nonempty
self-contained opcode chain. -/
theorem groupLoop_chain (la lb n : Nat) : ∀ (codes group : List Opcode)
    (i j : Nat), Chain la lb i j (group ++ codes) →
    ∀ g ∈ groupLoop n group codes, g ≠ [] ∧ ∃ i2 j2, Chain la lb i2 j2 g := by
  intro codes
  induction codes with
  | nil =>
    intro group i j h g hg
    simp only [groupLoop] at hg
    split at hg
    · rename_i hcond
      rw [List.mem_singleton] at hg
      subst hg
      exact ⟨hcond.1, i, j, by simpa using h⟩
    · simp at hg
  | cons c rest ih =>
    intro group i j h g hg
    simp only [groupLoop] at hg
    split at hg
    · rcases List.mem_cons.mp hg with hgg | hgg
      · subst hgg
        refine ⟨by simp, i, j, ?_⟩
        exact Chain_group_take la lb n group i j c rest h
      · have hsuf := Chain_suffix la lb group i j c rest h
        have hdrop := Chain_group_drop la lb n c rest hsuf
        exact ih [⟨c.tag, max c.i1 (c.i2 - n), c.i2, max c.j1 (c.j2 - n), c.j2⟩]
          _ _ (by simpa using hdrop) g hgg
    · refine ih (group ++ [c]) i j ?_ g hg
      rw [List.append_assoc, List.singleton_append]
      exact h

set_option maxHeartbeats 1000000 in
/-- Every group of `get_grouped_opcodes` is a nonempty self-contained
chain within the two sequences. -/
theorem getGroupedOpcodes_chain (a b : List α) (n : Nat) :
    ∀ g ∈ getGroupedOpcodes a b n, g ≠ [] ∧
      ∃ i j, Chain a.length b.length i j g := by
  intro g hg
  unfold getGroupedOpcodes at hg
  dsimp only at hg
  by_cases h0 : getOpcodes a b = []
  · rw [h0, if_pos rfl] at hg
    rw [fixups_single_equal n 1 1] at hg
    rw [groupLoop_single_equal n _ rfl (by dsimp only; omega)] at hg
    simp at hg
  · rw [if_neg h0] at hg
    have hchain := opcodesGo_chain a.length b.length (getMatchingBlocks a b)
      0 0 (getMatchingBlocks_chain a b)
    obtain ⟨i2, j2, hfix⟩ := fixupHead_chain n a.length b.length _ 0 0 hchain
    have hfix2 := fixupLast_chain n a.length b.length _ i2 j2 hfix
    exact groupLoop_chain a.length b.length n _ [] i2 j2
      (by rw [List.nil_append]; exact hfix2) g hg

end ChainInv

end DiffApp
